import Mathlib

/-!
# Combaine: the replicated assignment store (`combainer/fsm.go`)

A shallow embedding of `FSMStore`, of the Raft state machine `FSM` built on it,
and of the coalescing TTL cache (`common/cache/cache.go`).

* A Go `map[string]V` is an association list with pairwise distinct keys; the
  order of the list stands for the (unspecified) iteration order of the map.
* A `chan struct{}` is `none` (the nil channel) or `some i`, the `i`-th channel
  made.  `Chans` is the part of the heap that matters: how many channels have
  been made and which of them have been closed.  Closing a closed channel is a
  run-time panic; a function that can reach a `close` returns `Option`, and
  `none` is that panic.
* `go c.handleTask(config, stopCh)` is recorded in the list `tasks`.  The body
  of `handleTask` is not among the sources; it is taken to receive from the
  channel it is given and never to close it.
* The mutex of the store is not modelled: calls are made one at a time.
-/

namespace Combaine

/-! ## Go maps -/

/-- A Go map with string keys. -/
abbrev GoMap (V : Type) := List (String × V)

/-- The read `m[k]` in its two-valued form `v, ok := m[k]`. -/
def mapGet {V : Type} : GoMap V → String → Option V
  | [], _ => none
  | (k', v) :: m, k => if k' = k then some v else mapGet m k

/-- The read `m[k]`, with `zero` the zero value of the element type. -/
def mapGetD {V : Type} (m : GoMap V) (k : String) (zero : V) : V :=
  (mapGet m k).getD zero

/-- The assignment `m[k] = v`. -/
def mapSet {V : Type} : GoMap V → String → V → GoMap V
  | [], k, v => [(k, v)]
  | (k', v') :: m, k, v => if k' = k then (k', v) :: m else (k', v') :: mapSet m k v

/-- The statement `delete(m, k)`. -/
def mapDelete {V : Type} (m : GoMap V) (k : String) : GoMap V :=
  m.filter (fun p => !decide (p.1 = k))

/-- The keys in iteration order. -/
def mapKeys {V : Type} (m : GoMap V) : List String := m.map Prod.fst

/-! ## Channels -/

/-- A value of type `chan struct{}`: `none` is nil, `some i` the `i`-th channel made. -/
abbrev Chan := Option Nat

/-- The channels made so far. -/
structure Chans where
  /-- the number of channels made so far -/
  next : Nat
  /-- the channels that have been closed, the latest first -/
  closed : List Nat
deriving DecidableEq, Repr

/-- The expression `make(chan struct{})`. -/
def Chans.make (h : Chans) : Chan × Chans :=
  (some h.next, { h with next := h.next + 1 })

/-- The statement `close(ch)` on a non-nil channel; `none` is the panic
"close of closed channel". -/
def Chans.close (h : Chans) (i : Nat) : Option Chans :=
  if i ∈ h.closed then none else some { h with closed := i :: h.closed }

/-- The statement `if ch != nil { close(ch) }`. -/
def Chans.closeIfNotNil (h : Chans) : Chan → Option Chans
  | none => some h
  | some i => h.close i

/-! ## FSMStore -/

/-- The type `FSMStore`, together with the channels that its methods have made. -/
structure FSMStore where
  store : GoMap (GoMap Chan)
  chans : Chans
deriving DecidableEq, Repr

/-- The function `NewFSMStore`; no channel has been made yet. -/
def NewFSMStore : FSMStore := { store := [], chans := { next := 0, closed := [] } }

/-- The function `keys`. -/
def keys (m : GoMap Chan) : List String := mapKeys m

/-- The method `FSMStore.Put`: the store after the call and the channel returned. -/
def FSMStore.Put (s : FSMStore) (host config : String) : Option (FSMStore × Chan) :=
  let s1 : Option FSMStore :=
    match mapGet s.store host with
    | none => some { s with store := mapSet s.store host [] }
    | some hostConfigs =>
      -- stop previously runned clients
      (s.chans.closeIfNotNil (mapGetD hostConfigs config none)).map
        fun h => { s with chans := h }
  s1.bind fun s1 =>
    let newStopCh := s1.chans.make
    some ({ store := mapSet s1.store host (mapSet (mapGetD s1.store host []) config newStopCh.1)
            chans := newStopCh.2 }, newStopCh.1)

/-- The method `FSMStore.Remove`. -/
def FSMStore.Remove (s : FSMStore) (host config : String) : Option FSMStore :=
  match mapGet s.store host with
  | some hostConfigs =>
    match mapGet hostConfigs config with
    | some stopCh =>
      (s.chans.closeIfNotNil stopCh).map fun h =>
        { store := mapSet s.store host (mapDelete hostConfigs config), chans := h }
    | none => some s
  | none => some s

/-- The method `FSMStore.Dump`. -/
def FSMStore.Dump (s : FSMStore) : GoMap (List String) :=
  s.store.map fun kv => (kv.1, keys kv.2)

/-- One turn of the inner loop of `clean`, for the key `cfg` of `s.store[k]`. -/
def cleanConfig (k : String) (s : FSMStore) (cfg : String) : Option FSMStore :=
  (s.chans.closeIfNotNil (mapGetD (mapGetD s.store k []) cfg none)).map fun h =>
    { store := mapSet s.store k (mapDelete (mapGetD s.store k []) cfg), chans := h }

/-- One turn of the outer loop of `clean`, for the key `k` of `s.store`. -/
def cleanHost (s : FSMStore) (k : String) : Option FSMStore :=
  ((mapKeys (mapGetD s.store k [])).foldlM (cleanConfig k) s).map fun s1 =>
    { s1 with store := mapDelete s1.store k }

/-- The method `FSMStore.clean`. -/
def FSMStore.clean (s : FSMStore) : Option FSMStore :=
  (mapKeys s.store).foldlM cleanHost s

/-- The function `strconv.Itoa` on a length. -/
def Itoa (n : Nat) : String := toString n

/-- The method `FSMStore.DistributionStatistic`. -/
def FSMStore.DistributionStatistic (s : FSMStore) : List (String × String) :=
  s.store.map fun kv => (kv.1, Itoa kv.2.length)

/-- One turn of the inner loop of `Replace`. -/
def replaceConfig (k : String) (s : FSMStore) (cfg : String) : FSMStore :=
  let s1 : FSMStore :=
    match mapGet s.store k with
    | none => { s with store := mapSet s.store k [] }
    | some _ => s
  let ch := s1.chans.make
  { store := mapSet s1.store k (mapSet (mapGetD s1.store k []) cfg ch.1), chans := ch.2 }

/-- The method `FSMStore.Replace`. -/
def FSMStore.Replace (s : FSMStore) (newStore : GoMap (GoMap Chan)) : Option FSMStore :=
  s.clean.map fun s0 =>
    newStore.foldl (fun s1 kv => (mapKeys kv.2).foldl (replaceConfig kv.1) s1) s0

/-- The method `FSMStore.List`; `none` is the nil slice. -/
def FSMStore.List (s : FSMStore) (host : String) : Option (List String) :=
  match mapGet s.store host with
  | some hostConfigs => some (keys hostConfigs)
  | none => none

/-! ## FSM -/

/-- The type `FSMCommand`. -/
structure FSMCommand where
  type : String
  Host : String
  Config : String
deriving DecidableEq, Repr

def cmdAssignConfig : String := "AssignConfig"

def cmdRemoveConfig : String := "RemoveConfig"

/-- The fields of `Cluster` that the state machine uses, and the task runners
started so far (`go c.handleTask(config, stopCh)`), the oldest first. -/
structure FSM where
  Name : String
  store : FSMStore
  tasks : List (String × Chan)
deriving DecidableEq, Repr

/-- The part of `encoding/json` that the state machine calls, over a type
`Bytes` of serialised data. -/
structure JSON (Bytes : Type) where
  /-- `json.Unmarshal(l.Data, &cmd)`; `none` is an error -/
  UnmarshalCommand : Bytes → Option FSMCommand
  /-- `json.Marshal(dump)`; `none` is an error -/
  Marshal : GoMap (List String) → Option Bytes
  /-- `json.NewDecoder(rc).Decode(&newStore)`; `none` is an error -/
  Decode : Bytes → Option (GoMap (List String))

/-- The method `FSM.Apply`, after the command has been decoded.  The value
returned by `Apply` is always nil and is left out.  `none`: a `close` has
panicked; the deferred function of `Apply` recovers the panic, but `Put` and
`Remove` have not released the mutex of the store, which is stuck from then on. -/
def FSM.applyCommand (c : FSM) (cmd : FSMCommand) : Option FSM :=
  if cmd.type = cmdAssignConfig then
    (c.store.Put cmd.Host cmd.Config).map fun r =>
      if cmd.Host = c.Name then
        { c with store := r.1, tasks := c.tasks ++ [(cmd.Config, r.2)] }
      else
        { c with store := r.1 }
  else if cmd.type = cmdRemoveConfig then
    (c.store.Remove cmd.Host cmd.Config).map fun s => { c with store := s }
  else
    some c

/-- The method `FSM.Apply` on the data of a log entry. -/
def FSM.Apply {Bytes : Type} (json : JSON Bytes) (c : FSM) (data : Bytes) : Option FSM :=
  match json.UnmarshalCommand data with
  | none => some c
  | some cmd => c.applyCommand cmd

/-- The method `FSM.Snapshot`: the field `Data` of the snapshot. -/
def FSM.Snapshot {Bytes : Type} (json : JSON Bytes) (c : FSM) : Option Bytes :=
  json.Marshal c.store.Dump

/-- One turn of the inner loop of `Restore`. -/
def restoreConfig (host : String) (c : FSM) (config : String) : Option FSM :=
  (c.store.Put host config).map fun r =>
    if host = c.Name then
      { c with store := r.1, tasks := c.tasks ++ [(config, r.2)] }
    else
      { c with store := r.1 }

/-- The loops of `Restore` over the decoded map. -/
def restoreLoop (c : FSM) (newStore : GoMap (List String)) : Option FSM :=
  newStore.foldlM (fun c1 kv => kv.2.foldlM (restoreConfig kv.1) c1) c

/-- The method `FSM.Restore`: `Except.error` is the returned error, `none` a panic. -/
def FSM.Restore {Bytes : Type} (json : JSON Bytes) (c : FSM) (rc : Bytes) :
    Option (Except String FSM) :=
  match json.Decode rc with
  | none => some (.error "decode fsm store")
  | some newStore =>
    (c.store.clean.bind fun s => restoreLoop { c with store := s } newStore).map .ok

/-! ## The TTL cache (`common/cache/cache.go`)

Times (`time.Time`) and durations (`time.Duration`) are integers, in
nanoseconds.  A `time.Duration` is an `int64`, and `time.Since` returns the
largest or the smallest one when the difference does not fit (`timeSince`); the
sign of its result is the sign of the difference, so the check
`time.Since(item.expires) > 0` of `get` is written with the difference itself.
A call of a fetcher takes time; the other statements of `get` take none.  The
model is that of one caller at a time: the producer of an entry has returned
before the next call starts. -/

/-- The largest `time.Duration`, `math.MaxInt64`. -/
def maxDuration : Int := 9223372036854775807

/-- The smallest `time.Duration`, `math.MinInt64`. -/
def minDuration : Int := -9223372036854775808

/-- The function `time.Since`, when the clock reads `now`: the difference
`now - t`, or the largest or smallest duration when it is out of range. -/
def timeSince (now t : Int) : Int :=
  if now - t > maxDuration then maxDuration
  else if now - t < minDuration then minDuration
  else now - t

/-- A value of type `interface{}` held by the cache. -/
inductive Value
  | nil
  | bytes (b : List Nat)
  | strings (l : List String)
  | mapStringStrings (m : GoMap (List String))
  | other (tag : Nat)
deriving DecidableEq, Repr

/-- The type `itemType`; `ready` is true once the channel `ready` is closed, and
`err` is `none` for a nil error. -/
structure itemType where
  expires : Int
  value : Value
  err : Option String
  ready : Bool
deriving DecidableEq, Repr

/-- The type `TTLCache`.  The store holds pointers to items: an update of an
item is an update of the entry that holds it. -/
structure TTLCache where
  ttl : Int
  interval : Int
  cleanupAfter : Int
  store : GoMap itemType
deriving DecidableEq, Repr

/-- One call of a fetcher: the time it takes and what it returns. -/
structure Fetch where
  took : Nat
  value : Value
  err : Option String
deriving DecidableEq, Repr

/-- The type `fetcher`: what a call made at a given time does. -/
abbrev fetcher := Int → Fetch

/-- The outcome of a call of `get`. -/
structure GetResult where
  /-- the cache when `get` returns -/
  cache : TTLCache
  /-- the time at which `get` returns -/
  now : Int
  value : Value
  err : Option String
  /-- how many times `get` has called the fetcher before it returns -/
  called : Nat
  /-- whether `get` has started the goroutine that refreshes the entry -/
  refreshing : Bool
deriving DecidableEq, Repr

/-- The end of `get`, from `<-item.ready` on, at time `now`; `none`: the caller
blocks on a channel that nobody closes. -/
def getFinish (c : TTLCache) (now : Int) (item : itemType) (called : Nat) : Option GetResult :=
  if item.ready then
    some { cache := c, now := now, value := item.value, err := item.err, called := called,
           refreshing := decide (now - item.expires > 0) }
  else
    none

/-- The method `TTLCache.get`, called at time `now`. -/
def TTLCache.get (c : TTLCache) (now : Int) (key : String) (f : fetcher) : Option GetResult :=
  match mapGet c.store key with
  | none =>
    let item : itemType := { ready := false, expires := now + c.ttl, value := .nil, err := none }
    let c1 : TTLCache := { c with store := mapSet c.store key item }
    let r := f now
    let item1 : itemType := { item with value := r.value, err := r.err }
    let c2 : TTLCache :=
      if r.err.isSome then { c1 with store := mapDelete c1.store key }
      else { c1 with store := mapSet c1.store key item1 }
    let item2 : itemType := { item1 with ready := true }
    let c3 : TTLCache :=
      if r.err.isSome then c2 else { c2 with store := mapSet c2.store key item2 }
    getFinish c3 (now + r.took) item2 1
  | some item => getFinish c now item 0

/-- The goroutine that `get` starts for a stale entry, when it runs at time `now`. -/
def TTLCache.refresh (c : TTLCache) (now : Int) (key : String) (f : fetcher) : TTLCache :=
  let r := f now
  match r.err with
  | some _ => c
  | none =>
    let updated : itemType :=
      { value := r.value, err := r.err, ready := true, expires := now + r.took + c.ttl }
    { c with store := mapSet c.store key updated }

/-- One call of a typed fetcher (`bytesFetcher`, `stringsFetcher`,
`mapStringStringsFetcher`): the time it takes and what it returns. -/
structure TypedFetch (α : Type) where
  took : Nat
  data : α
  err : Option String

/-- The type `bytesFetcher`. -/
abbrev bytesFetcher := Int → TypedFetch (List Nat)

/-- The type `stringsFetcher`. -/
abbrev stringsFetcher := Int → TypedFetch (List String)

/-- The type `mapStringStringsFetcher`. -/
abbrev mapStringStringsFetcher := Int → TypedFetch (GoMap (List String))

/-- The outcome of a call of a typed accessor: the call of `get` it makes, and
the pair it returns; `data` is `none` for the nil returned with an error. -/
structure TypedResult (α : Type) where
  get : GetResult
  data : Option α
  err : Option String

/-- The method `TTLCache.GetBytes`. -/
def TTLCache.GetBytes (c : TTLCache) (now : Int) (key : String) (f : bytesFetcher) :
    Option (TypedResult (List Nat)) :=
  (c.get now key fun t => { took := (f t).took, value := .bytes (f t).data, err := (f t).err }).map
    fun r =>
      match r.err with
      | some err => { get := r, data := none, err := some err }
      | none =>
        match r.value with
        | .bytes data => { get := r, data := some data, err := none }
        | _ => { get := r, data := none, err := some "data is not []bytes" }

/-- The method `TTLCache.GetStrings`. -/
def TTLCache.GetStrings (c : TTLCache) (now : Int) (key : String) (f : stringsFetcher) :
    Option (TypedResult (List String)) :=
  (c.get now key fun t => { took := (f t).took, value := .strings (f t).data, err := (f t).err }).map
    fun r =>
      match r.err with
      | some err => { get := r, data := none, err := some err }
      | none =>
        match r.value with
        | .strings data => { get := r, data := some data, err := none }
        | _ => { get := r, data := none, err := some "data is not []string" }

/-- The method `TTLCache.GetMapStringStrings`. -/
def TTLCache.GetMapStringStrings (c : TTLCache) (now : Int) (key : String)
    (f : mapStringStringsFetcher) : Option (TypedResult (GoMap (List String))) :=
  (c.get now key fun t =>
      { took := (f t).took, value := .mapStringStrings (f t).data, err := (f t).err }).map
    fun r =>
      match r.err with
      | some err => { get := r, data := none, err := some err }
      | none =>
        match r.value with
        | .mapStringStrings data => { get := r, data := some data, err := none }
        | _ => { get := r, data := none, err := some "data is not map[string][]string" }

/-- One turn of the loop of `TTLCache.cleaner` after the sleep, at time `now`. -/
def TTLCache.cleanerPass (c : TTLCache) (now : Int) : TTLCache :=
  let staleItems : List String :=
    (c.store.filter fun kv => decide (timeSince now kv.2.expires > c.cleanupAfter)).map Prod.fst
  if staleItems.length > 0 then
    { c with store := staleItems.foldl mapDelete c.store }
  else
    c

/-- The method `TTLCache.cleaner`, for the times at which it wakes up. -/
def TTLCache.cleaner (c : TTLCache) : List Int → TTLCache
  | [] => c
  | now :: wakeups => (c.cleanerPass now).cleaner wakeups

/-! ## Cluster membership (`combainer/cluster.go`, `combainer/cluster/serf.go`)

The gossip library `hashicorp/serf` is not part of the sources: its type
`MemberStatus` is an `int` whose declared values are `StatusNone = 0`,
`StatusAlive = 1`, `StatusLeaving = 2`, `StatusLeft = 3` and `StatusFailed = 4`. -/

/-- The type `serf.MemberStatus`. -/
abbrev MemberStatus := Int

def StatusNone : MemberStatus := 0

def StatusAlive : MemberStatus := 1

def StatusLeaving : MemberStatus := 2

def StatusLeft : MemberStatus := 3

def StatusFailed : MemberStatus := 4

/-- The constant `statusReap = serf.MemberStatus(-1)`. -/
def statusReap : MemberStatus := -1

/-- The fields of `serf.Member` that the cluster reads. -/
structure Member where
  Name : String
  Status : MemberStatus
deriving DecidableEq, Repr

/-- The type `serf.EventType`. -/
inductive EventType
  | EventMemberJoin
  | EventMemberLeave
  | EventMemberFailed
  | EventMemberUpdate
  | EventMemberReap
  | EventUser
  | EventQuery
deriving DecidableEq, Repr

/-- The type `serf.MemberEvent`; `type` is what `EventType()` returns. -/
structure MemberEvent where
  type : EventType
  Members : List Member
deriving DecidableEq, Repr

/-- The fields of `Cluster` that membership uses.  `serf` is `none` for the nil
pointer and `some all` for a gossip instance whose `Members()` returns `all`;
`reconcileCh` is the content of the channel, the oldest member first;
`isLeader` is what `c.IsLeader()` returns. -/
structure Cluster where
  serf : Option (List Member)
  reconcileCh : List Member
  isLeader : Bool
deriving DecidableEq, Repr

/-- The capacity of `reconcileCh`: `make(chan serf.Member, 32)`. -/
def reconcileChCap : Nat := 32

/-- The method `Cluster.Members`; the nil slice is the empty list. -/
def Cluster.Members (c : Cluster) : List Member :=
  match c.serf with
  | none => []
  | some all =>
    all.foldl (fun alive m => if m.Status = StatusAlive then alive ++ [m] else alive) []

/-- The method `Cluster.Hosts`: the slice `hosts` is made with the length of
`members` and filled index by index. -/
def Cluster.Hosts (c : Cluster) : List String :=
  let members := c.Members
  let hosts : List String := List.replicate members.length ""
  members.enum.foldl (fun hosts im => hosts.set im.1 im.2.Name) hosts

/-- The method `Cluster.Hosts` of the older package `combainer/cluster`
(`serf.go`); `none` is the panic of a call on the nil pointer. -/
def cluster.Cluster.Hosts (c : Cluster) : Option (List String) :=
  match c.serf with
  | none => none
  | some all =>
    some (all.foldl (fun alive m => if m.Status = StatusAlive then alive ++ [m.Name] else alive) [])

/-- The method `Cluster.Members` of the older package `combainer/cluster`
(`serf.go`); `none` is the panic of a call on the nil pointer. -/
def cluster.Cluster.Members (c : Cluster) : Option (List Member) :=
  match c.serf with
  | none => none
  | some all =>
    some (all.foldl (fun alive m => if m.Status = StatusAlive then alive ++ [m] else alive) [])

/-- The statement `select { case c.reconcileCh <- m: default: }` when no
receiver is waiting: the member is queued unless the channel is full. -/
def trySend (q : List Member) (m : Member) : List Member :=
  if q.length < reconcileChCap then q ++ [m] else q

/-- The method `Cluster.localMemberEvent`: the content of `reconcileCh` after the call. -/
def Cluster.localMemberEvent (c : Cluster) (me : MemberEvent) : Cluster :=
  if !c.isLeader then
    c
  else
    let isReap := decide (me.type = EventType.EventMemberReap)
    { c with reconcileCh :=
        me.Members.foldl (fun q m =>
          let m1 : Member := if isReap then { m with Status := statusReap } else m
          trySend q m1) c.reconcileCh }

/-! ## Worker futures (`combainer/worker/worker.go`, `worker/parsing.go`) -/

/-- The interface `cocaine.ServiceResult`: what `Err()` returns (`none` is nil)
and what `Extract` does, an error or the data it writes into its argument. -/
structure ServiceResult where
  Err : Option String
  Extract : Except String (List Nat)

/-- The variable `ErrAppCall`. -/
def ErrAppCall : String := "Application call error"

/-- What `futureV11.Wait` selects: a value received from `f.ch` (`none` is nil),
or `ctx.Done()` with the error that `ctx.Err()` returns. -/
inductive WaitEvent
  | res (r : Option ServiceResult)
  | done (ctxErr : String)

/-- The outcome of `futureV11.Wait`: the error returned (`none` is nil), what
`Extract` wrote into `result`, and whether `Extract` was called. -/
structure WaitResult where
  err : Option String
  result : Option (List Nat)
  extractCalled : Bool
deriving DecidableEq, Repr

/-- The method `futureV11.Wait`. -/
def futureV11.Wait (ev : WaitEvent) : WaitResult :=
  match ev with
  | .res none => { err := some ErrAppCall, result := none, extractCalled := false }
  | .res (some res) =>
    match res.Err with
    | some e => { err := some e, result := none, extractCalled := false }
    | none =>
      match res.Extract with
      | .error e => { err := some e, result := none, extractCalled := true }
      | .ok data => { err := none, result := some data, extractCalled := true }
  | .done ctxErr => { err := some ctxErr, result := none, extractCalled := false }

/-- The branch `case res := <-app.Call("enqueue", "aggregate_host", t)` of the
goroutine of `DoParsing`: the item `{key, rawRes}` that it sends on `ch`, if any. -/
def parsingReceive (key : String) (res : Option ServiceResult) : Option (String × List Nat) :=
  match res with
  | none => none
  | some res =>
    match res.Err with
    | some _ => none
    | none =>
      match res.Extract with
      | .error _ => none
      | .ok rawRes => some (key, rawRes)

/-! ## Concurrent callers of `get` on one key

Goroutines that run `get` for the same key are interleaved statement by
statement; what a goroutine does between `c.Lock()` and `c.Unlock()` is one
step.  Items live in a heap (`items`, a pointer is an index), `entry` is
`c.store[key]`, and time passes in steps of its own.  The calls of the fetcher
are numbered, a producer's call as the producer stores its item and a refresh
goroutine's call as the goroutine starts, and `f n` is what call number `n`
returns: every assignment of results to calls is some `f`. -/

/-- What a call of the fetcher returns. -/
structure Outcome where
  value : Value
  err : Option String
deriving DecidableEq, Repr

/-- Where a goroutine that runs `get` stands. -/
inductive CallerPc
  /-- before `c.Lock()` -/
  | start
  /-- the producer, inside the call `f()` number `call`, with its item stored -/
  | fetching (item call : Nat)
  /-- the producer after a failed fetch, before `delete(c.store, key)` -/
  | deleting (item : Nat)
  /-- the producer before `close(item.ready)` -/
  | closing (item : Nat)
  /-- at `<-item.ready` -/
  | waiting (item : Nat)
  /-- after `return item.value, item.err` -/
  | returned (item : Nat) (value : Value) (err : Option String)
deriving DecidableEq, Repr

/-- Where a refresh goroutine (`go func() { ... }()` in `get`) stands. -/
inductive RefreshPc
  /-- before `value, err := f()` -/
  | calling
  /-- inside the call `f()` number `call` -/
  | fetching (call : Nat)
  /-- before `close(updated.ready)` -/
  | closing (item : Nat)
  | finished
deriving DecidableEq, Repr

/-- The cache and the goroutines at work on one key. -/
structure Conc where
  ttl : Int
  /-- the clock -/
  now : Int
  /-- the items made so far -/
  items : List itemType
  /-- the value of `c.store[key]`, a pointer to an item; `none` when there is no entry -/
  entry : Option Nat
  /-- the number of calls of the fetcher numbered so far -/
  calls : Nat
  callers : List CallerPc
  refreshers : List RefreshPc
deriving DecidableEq, Repr

/-- An update of the item behind a pointer. -/
def modifyItem (items : List itemType) (i : Nat) (g : itemType → itemType) : List itemType :=
  match items.get? i with
  | some item => items.set i (g item)
  | none => items

/-- One step of the goroutine `i` that runs `get`. -/
def Conc.callerStep (f : Nat → Outcome) (σ : Conc) (i : Nat) : Conc :=
  match σ.callers.get? i with
  | none => σ
  | some .start =>
    match σ.entry with
    | none =>
      { σ with
        items := σ.items ++ [{ ready := false, expires := σ.now + σ.ttl, value := .nil, err := none }]
        entry := some σ.items.length
        calls := σ.calls + 1
        callers := σ.callers.set i (.fetching σ.items.length σ.calls) }
    | some item => { σ with callers := σ.callers.set i (.waiting item) }
  | some (.fetching item call) =>
    { σ with
      items := modifyItem σ.items item fun it => { it with value := (f call).value, err := (f call).err }
      callers := σ.callers.set i (if (f call).err.isSome then .deleting item else .closing item) }
  | some (.deleting item) =>
    { σ with entry := none, callers := σ.callers.set i (.closing item) }
  | some (.closing item) =>
    { σ with
      items := modifyItem σ.items item fun it => { it with ready := true }
      callers := σ.callers.set i (.waiting item) }
  | some (.waiting item) =>
    match σ.items.get? item with
    | none => σ
    | some it =>
      if it.ready then
        { σ with
          refreshers := if σ.now - it.expires > 0 then σ.refreshers ++ [.calling] else σ.refreshers
          callers := σ.callers.set i (.returned item it.value it.err) }
      else σ
  | some (.returned _ _ _) => σ

/-- One step of the refresh goroutine `j`. -/
def Conc.refresherStep (f : Nat → Outcome) (σ : Conc) (j : Nat) : Conc :=
  match σ.refreshers.get? j with
  | none => σ
  | some .calling =>
    { σ with calls := σ.calls + 1, refreshers := σ.refreshers.set j (.fetching σ.calls) }
  | some (.fetching call) =>
    match (f call).err with
    | some _ => { σ with refreshers := σ.refreshers.set j .finished }
    | none =>
      { σ with
        items := σ.items ++
          [{ value := (f call).value, err := (f call).err, ready := false, expires := σ.now + σ.ttl }]
        entry := some σ.items.length
        refreshers := σ.refreshers.set j (.closing σ.items.length) }
  | some (.closing item) =>
    { σ with
      items := modifyItem σ.items item fun it => { it with ready := true }
      refreshers := σ.refreshers.set j .finished }
  | some .finished => σ

/-- What the scheduler lets happen next. -/
inductive Event
  | caller (i : Nat)
  | refresher (j : Nat)
  | tick (d : Nat)
deriving DecidableEq, Repr

/-- One step of the system. -/
def Conc.step (f : Nat → Outcome) (σ : Conc) : Event → Conc
  | .caller i => σ.callerStep f i
  | .refresher j => σ.refresherStep f j
  | .tick d => { σ with now := σ.now + d }

/-- The steps of a schedule in order. -/
def Conc.run (f : Nat → Outcome) (σ : Conc) (schedule : List Event) : Conc :=
  schedule.foldl (Conc.step f) σ

/-- The cache with no entry for the key at time `now`, and `k` goroutines about to call `get`. -/
def Conc.init (ttl now : Int) (k : Nat) : Conc :=
  { ttl := ttl, now := now, items := [], entry := none, calls := 0,
    callers := List.replicate k .start, refreshers := [] }

/-! ## The vocabulary of the statements -/

/-- The state machine of a node that has applied nothing yet. -/
def FSM.init (name : String) : FSM := { Name := name, store := NewFSMStore, tasks := [] }

/-- The log entries `log` applied in order with `FSM.Apply`. -/
def FSM.applyAll {Bytes : Type} (json : JSON Bytes) (c : FSM) (log : List Bytes) : Option FSM :=
  log.foldlM (FSM.Apply json) c

/-- The channel held by the entry `(host, config)`; `none` when there is no such entry. -/
def FSMStore.handle (s : FSMStore) (host config : String) : Option Chan :=
  (mapGet s.store host).bind fun m => mapGet m config

/-- The channel of an entry, on the map itself. -/
def storeHandle (store : GoMap (GoMap Chan)) (host config : String) : Option Chan :=
  (mapGet store host).bind fun m => mapGet m config

/-- The channels held by the entries of a store, in iteration order. -/
def storeHandles : GoMap (GoMap Chan) → List Chan
  | [] => []
  | kv :: m => kv.2.map Prod.snd ++ storeHandles m

/-- The hosts of a dump. -/
def dumpHosts (d : GoMap (List String)) : List String := mapKeys d

/-- The configs that a dump lists for a host. -/
def dumpConfigs (d : GoMap (List String)) (host : String) : List String := mapGetD d host []

/-- The pairs `(host, config)` that a dump lists, in iteration order. -/
def dumpEntries : GoMap (List String) → List (String × String)
  | [] => []
  | kv :: m => kv.2.map (fun config => (kv.1, config)) ++ dumpEntries m

/-- The invariant of the store: keys are distinct, every entry holds a channel
that was made and is not closed, no two entries hold the same channel, and a
channel that was made and is held by no entry is closed. -/
structure FSMStore.Inv (s : FSMStore) : Prop where
  hosts_nodup : (mapKeys s.store).Nodup
  configs_nodup : ∀ host m, mapGet s.store host = some m → (mapKeys m).Nodup
  live : ∀ host config ch, s.handle host config = some ch →
    ∃ i, ch = some i ∧ i < s.chans.next ∧ i ∉ s.chans.closed
  exclusive : ∀ h c h' c' i, s.handle h c = some (some i) → s.handle h' c' = some (some i) →
    h = h' ∧ c = c'
  released : ∀ i, i < s.chans.next → (∀ h c, s.handle h c ≠ some (some i)) →
    i ∈ s.chans.closed
  closed_nodup : s.chans.closed.Nodup
  closed_lt : ∀ i ∈ s.chans.closed, i < s.chans.next

/-- The statement `if ch != nil { close(ch) }` for each channel of a list in turn. -/
def closeAll (h : Chans) (chs : List Chan) : Option Chans :=
  chs.foldlM Chans.closeIfNotNil h

/-- What a run of calls `Put(host, config)`, one for each pair of `puts` and each
followed by `go c.handleTask(config, stopCh)` when `host` is the local node,
makes of the state machine `c`. -/
structure PutsFrom (c c' : FSM) (puts : List (String × String)) : Prop where
  inv : c'.store.Inv
  name : c'.Name = c.Name
  next_le : c.store.chans.next ≤ c'.store.chans.next
  closed_mono : ∀ i ∈ c.store.chans.closed, i ∈ c'.store.chans.closed
  hosts : ∀ h, h ∈ mapKeys c'.store.store ↔
    h ∈ mapKeys c.store.store ∨ ∃ cfg, (h, cfg) ∈ puts
  frame : ∀ h cfg, (h, cfg) ∉ puts → c'.store.handle h cfg = c.store.handle h cfg
  fresh : ∀ h cfg, (h, cfg) ∈ puts →
    ∃ i, c'.store.handle h cfg = some (some i) ∧ c.store.chans.next ≤ i
  tasks : ∃ new, c'.tasks = c.tasks ++ new ∧
    new.map Prod.fst = (puts.filter (fun p => decide (p.1 = c.Name))).map Prod.snd ∧
    (∀ t ∈ new, ∃ i, t.2 = some i ∧ c.store.chans.next ≤ i) ∧
    ∀ cfg, (c.Name, cfg) ∈ puts →
      ∃ i, (cfg, some i) ∈ new ∧ c'.store.handle c.Name cfg = some (some i)

/-- A call of one of the methods that change the store. -/
inductive Op (Bytes : Type)
  | Put (host config : String)
  | Remove (host config : String)
  | clean
  | Replace (newStore : GoMap (GoMap Chan))
  | Apply (data : Bytes)
  | Restore (rc : Bytes)

/-- The argument of `Replace` is a Go map: its keys are distinct. -/
def Op.WellFormed {Bytes : Type} : Op Bytes → Prop
  | .Replace newStore => (mapKeys newStore).Nodup ∧ ∀ kv ∈ newStore, (mapKeys kv.2).Nodup
  | _ => True

/-- The state machine after the call `op`; `none` is a panic. -/
def Op.run {Bytes : Type} (json : JSON Bytes) (c : FSM) : Op Bytes → Option FSM
  | .Put host config => (c.store.Put host config).map fun r => { c with store := r.1 }
  | .Remove host config => (c.store.Remove host config).map fun s => { c with store := s }
  | .clean => c.store.clean.map fun s => { c with store := s }
  | .Replace newStore => (c.store.Replace newStore).map fun s => { c with store := s }
  | .Apply data => FSM.Apply json c data
  | .Restore rc => (FSM.Restore json c rc).map fun r =>
      match r with
      | .ok c' => c'
      | .error _ => c

/-- The calls `ops` made in order. -/
def FSM.runOps {Bytes : Type} (json : JSON Bytes) (c : FSM) (ops : List (Op Bytes)) :
    Option FSM :=
  ops.foldlM (Op.run json) c

/-- What the state machine relies on in `encoding/json`: a dump that is
marshalled and decoded again comes back as a Go map with the same lists for the
same hosts. -/
def JSON.RoundTrip {Bytes : Type} (json : JSON Bytes) : Prop :=
  ∀ d : GoMap (List String), (mapKeys d).Nodup →
    ∃ b d', json.Marshal d = some b ∧ json.Decode b = some d' ∧ (mapKeys d').Nodup ∧
      ∀ host, mapGet d' host = mapGet d host

/-- The number of calls of the fetcher that a call of `get` makes or starts. -/
def GetResult.fetcherCalls (r : GetResult) : Nat :=
  r.called + if r.refreshing then 1 else 0

/-- A stand-in for the JSON documents: a command, a dump, or data that decodes
to neither. -/
inductive Doc
  | command (cmd : FSMCommand)
  | dump (d : GoMap (List String))
  | garbage
deriving DecidableEq, Repr

/-- A codec over `Doc`. -/
def docJSON : JSON Doc where
  UnmarshalCommand := fun b => match b with
    | .command cmd => some cmd
    | _ => none
  Marshal := fun d => some (.dump d)
  Decode := fun b => match b with
    | .dump d => some d
    | _ => none

/-- A store with the single entry `("a", "c")`, as left by `Put("a", "c")` on a new store. -/
def storeAC : FSMStore :=
  { store := [("a", [("c", some 0)])], chans := { next := 1, closed := [] } }

/-- A run of calls that exercises every method, for the codec `docJSON`. -/
def sampleOps : List (Op Doc) :=
  [.Put "a" "c", .Put "a" "c", .Apply (.command ⟨"AssignConfig", "b", "c1"⟩),
   .Remove "a" "c", .Restore (.dump [("a", ["c1", "c2"]), ("b", ["c3"])]),
   .Replace [("x", [("y", none)])], .Put "x" "y"]

/-- A run of commands in which the same `AssignConfig` comes several times. -/
def sampleLog : List (Op Doc) :=
  [.Apply (.command ⟨"AssignConfig", "a", "c"⟩), .Apply (.command ⟨"AssignConfig", "a", "c"⟩),
   .Apply (.command ⟨"AssignConfig", "a", "d"⟩), .Apply (.command ⟨"RemoveConfig", "a", "d"⟩),
   .Restore (.dump [("a", ["c", "c"]), ("b", ["c3"])]),
   .Apply (.command ⟨"AssignConfig", "b", "c3"⟩)]

/-- A cache with a TTL of 10 and no entry. -/
def cache10 : TTLCache := { ttl := 10, interval := 100, cleanupAfter := 50, store := [] }

/-- A fetcher that takes 20 and returns a value. -/
def slowFetch : fetcher := fun _ => { took := 20, value := .bytes [118], err := none }

/-- A fetcher that takes 5 and returns a value. -/
def quickFetch : fetcher := fun _ => { took := 5, value := .bytes [118], err := none }

/-- A fetcher that takes 5 and fails. -/
def failFetch : fetcher := fun _ => { took := 5, value := .nil, err := some "boom" }

/-- A cache with a TTL of 100 and an entry for `"k"` that expires at 100. -/
def cacheK : TTLCache :=
  { ttl := 100, interval := 100, cleanupAfter := 500,
    store := [("k", { expires := 100, value := .bytes [118], err := none, ready := true })] }

/-- A cache with `cleanupAfter = 500` and three entries, which at time 700 are
past `cleanupAfter`, stale but within `cleanupAfter`, and not yet expired. -/
def cacheSweep : TTLCache :=
  { ttl := 100, interval := 100, cleanupAfter := 500,
    store := [("old", { expires := 100, value := .bytes [1], err := none, ready := true }),
              ("stale", { expires := 600, value := .bytes [2], err := none, ready := true }),
              ("fresh", { expires := 750, value := .bytes [3], err := none, ready := true })] }

/-- A leader whose `reconcileCh` holds 31 members: one place is left. -/
def clusterFull : Cluster :=
  { serf := some [⟨"a", 1⟩, ⟨"b", 4⟩, ⟨"c", 1⟩],
    reconcileCh := List.replicate 31 ⟨"a", 1⟩, isLeader := true }

/-- A reap event for two members. -/
def reapEvent : MemberEvent :=
  { type := EventType.EventMemberReap, Members := [⟨"b", 4⟩, ⟨"d", 3⟩] }

/-- A cache whose entry for `"k"` holds a `[]string`. -/
def cacheStrings : TTLCache :=
  { ttl := 100, interval := 100, cleanupAfter := 500,
    store := [("k", { expires := 100, value := .strings ["x"], err := none, ready := true })] }

/-- A `bytesFetcher` that takes 5 and returns a value. -/
def quickBytes : bytesFetcher := fun _ => { took := 5, data := [118], err := none }

/-- A fetcher whose call number `n` returns the bytes `[118 + n]`. -/
def versionFetch : Nat → Outcome := fun n => { value := .bytes [118 + n], err := none }

/-- A fetcher whose call at time 0 fails after 20 and whose later calls return
bytes after 5. -/
def flakyFetch : fetcher := fun t =>
  if t = 0 then { took := 20, value := .nil, err := some "boom" }
  else { took := 5, value := .bytes [118], err := none }

/-- A cache with a TTL of 10 whose entry for `"k"` was made at time 0 by a
producer that is still inside the fetcher. -/
def cachePending : TTLCache :=
  { ttl := 10, interval := 100, cleanupAfter := 500,
    store := [("k", { expires := 10, value := .nil, err := none, ready := false })] }

/-- The producer stores its item at 0; at 15 a second caller looks the key up
and is scheduled twice more. -/
def pendingSchedule : List Event := [.caller 0, .tick 15, .caller 1, .caller 1, .caller 1]

/-- A cache whose `cleanupAfter` is the largest duration, with an entry that
expired at 100. -/
def cacheForever : TTLCache :=
  { ttl := 100, interval := 100, cleanupAfter := maxDuration,
    store := [("old", { expires := 100, value := .bytes [1], err := none, ready := true })] }

/-! ## Lemmas on Go maps -/

section MapLemmas

variable {V : Type}

theorem mapGet_mapSet (m : GoMap V) (k k' : String) (v : V) :
    mapGet (mapSet m k v) k' = if k = k' then some v else mapGet m k' := by
  induction m with
  | nil => simp [mapSet, mapGet]
  | cons p m ih =>
    obtain ⟨a, b⟩ := p
    by_cases h : a = k
    · subst h
      by_cases h' : a = k' <;> simp [mapSet, mapGet, h']
    · by_cases h' : a = k'
      · subst h'
        have : ¬ k = a := fun e => h e.symm
        simp [mapSet, mapGet, h, this]
      · simp [mapSet, mapGet, h, h', ih]

theorem mapGet_mapDelete (m : GoMap V) (k k' : String) :
    mapGet (mapDelete m k) k' = if k = k' then none else mapGet m k' := by
  induction m with
  | nil => simp [mapDelete, mapGet]
  | cons p m ih =>
    obtain ⟨a, b⟩ := p
    unfold mapDelete at ih ⊢
    by_cases h : a = k
    · subst h
      by_cases h' : a = k'
      · simpa [mapGet, h'] using ih
      · simpa [mapGet, h'] using ih
    · by_cases h' : a = k'
      · subst h'
        have : ¬ k = a := fun e => h e.symm
        simp [mapGet, h, this]
      · simp [mapGet, h, h', ih]

theorem mem_mapKeys_iff (m : GoMap V) (k : String) :
    k ∈ mapKeys m ↔ ∃ v, mapGet m k = some v := by
  induction m with
  | nil => simp [mapKeys, mapGet]
  | cons p m ih =>
    obtain ⟨a, b⟩ := p
    unfold mapKeys at ih
    by_cases h : a = k
    · simp [mapKeys, mapGet, h]
    · have h2 : ¬ k = a := fun e => h e.symm
      simp [mapKeys, mapGet, h, h2, ih]

theorem not_mem_mapKeys_iff (m : GoMap V) (k : String) :
    k ∉ mapKeys m ↔ mapGet m k = none := by
  rw [mem_mapKeys_iff]
  cases mapGet m k <;> simp

theorem mem_mapKeys_mapSet (m : GoMap V) (k k' : String) (v : V) :
    k' ∈ mapKeys (mapSet m k v) ↔ k' = k ∨ k' ∈ mapKeys m := by
  rw [mem_mapKeys_iff, mem_mapKeys_iff, mapGet_mapSet]
  by_cases h : k = k'
  · simp [h]
  · have h2 : ¬ k' = k := fun e => h e.symm
    simp [h, h2]

theorem nodup_mapKeys_mapSet (m : GoMap V) (k : String) (v : V)
    (h : (mapKeys m).Nodup) : (mapKeys (mapSet m k v)).Nodup := by
  induction m with
  | nil => simp [mapSet, mapKeys]
  | cons p m ih =>
    obtain ⟨a, b⟩ := p
    have h1 : a ∉ mapKeys m ∧ (mapKeys m).Nodup := by simpa [mapKeys] using h
    by_cases e : a = k
    · simpa [mapSet, e, mapKeys] using h
    · have h3 : a ∉ mapKeys (mapSet m k v) := by
        rw [mem_mapKeys_mapSet]
        rintro (r | r)
        · exact e r
        · exact h1.1 r
      have h4 := ih h1.2
      simp only [mapSet, e, if_false]
      simp only [mapKeys, List.map_cons, List.nodup_cons]
      exact ⟨h3, h4⟩

theorem nodup_mapKeys_mapDelete (m : GoMap V) (k : String)
    (h : (mapKeys m).Nodup) : (mapKeys (mapDelete m k)).Nodup := by
  unfold mapKeys mapDelete at *
  exact List.Nodup.sublist (List.Sublist.map _ (List.filter_sublist m)) h

theorem mapDelete_of_not_mem (m : GoMap V) (k : String) (h : k ∉ mapKeys m) :
    mapDelete m k = m := by
  unfold mapDelete
  rw [List.filter_eq_self]
  intro p hp
  have : p.1 ≠ k := by
    rintro rfl
    exact h (List.mem_map_of_mem Prod.fst hp)
  simp [this]

theorem mapSet_mapSet (m : GoMap V) (k : String) (a b : V) :
    mapSet (mapSet m k a) k b = mapSet m k b := by
  induction m with
  | nil => simp [mapSet]
  | cons p m ih =>
    obtain ⟨x, y⟩ := p
    by_cases h : x = k <;> simp [mapSet, h, ih]

theorem mem_of_mapGet (m : GoMap V) (k : String) (v : V) (h : mapGet m k = some v) :
    (k, v) ∈ m := by
  induction m with
  | nil => simp [mapGet] at h
  | cons p m ih =>
    obtain ⟨a, b⟩ := p
    by_cases e : a = k
    · simp [mapGet, e] at h
      simp [e, h]
    · simp [mapGet, e] at h
      exact List.mem_cons_of_mem _ (ih h)

theorem mapGet_of_mem (m : GoMap V) (k : String) (v : V) (hn : (mapKeys m).Nodup)
    (h : (k, v) ∈ m) : mapGet m k = some v := by
  induction m with
  | nil => simp at h
  | cons p m ih =>
    obtain ⟨a, b⟩ := p
    have h1 : a ∉ mapKeys m ∧ (mapKeys m).Nodup := by simpa [mapKeys] using hn
    rcases List.mem_cons.1 h with r | r
    · cases r
      simp [mapGet]
    · have hk : k ∈ mapKeys m := List.mem_map_of_mem Prod.fst r
      have e : ¬ a = k := by
        rintro rfl
        exact h1.1 hk
      simp [mapGet, e, ih h1.2 r]

end MapLemmas

/-! ## The invariant of the store -/

theorem handle_eq_mapGetD (s : FSMStore) (host config : String) :
    s.handle host config = mapGet (mapGetD s.store host []) config := by
  unfold FSMStore.handle mapGetD
  cases mapGet s.store host <;> simp [mapGet]

theorem inv_NewFSMStore : NewFSMStore.Inv where
  hosts_nodup := by simp [NewFSMStore, mapKeys]
  configs_nodup := by simp [NewFSMStore, mapGet]
  live := by simp [NewFSMStore, FSMStore.handle, mapGet]
  exclusive := by simp [NewFSMStore, FSMStore.handle, mapGet]
  released := by simp [NewFSMStore]
  closed_nodup := by simp [NewFSMStore]
  closed_lt := by simp [NewFSMStore]

/-- `Put` in one piece: close the old channel if there is one, make a new one, store it. -/
theorem Put_eq (s : FSMStore) (host config : String) :
    s.Put host config =
      (s.chans.closeIfNotNil ((s.handle host config).getD none)).map fun h =>
        (({ store := mapSet s.store host
              (mapSet (mapGetD s.store host []) config (some h.next))
            chans := { next := h.next + 1, closed := h.closed } } : FSMStore), some h.next) := by
  unfold FSMStore.Put FSMStore.handle
  cases hg : mapGet s.store host with
  | none =>
    simp [Chans.closeIfNotNil, Chans.make, mapGetD, mapGet_mapSet, mapSet_mapSet, hg]
  | some hc =>
    simp only [Option.bind_some, mapGetD, hg, Option.getD_some]
    cases hcl : Chans.closeIfNotNil s.chans ((mapGet hc config).getD none) with
    | none => simp [hcl]
    | some h => simp [Chans.make, hg, hcl]

theorem handle_Put (s s' : FSMStore) (host config : String) (ch : Chan)
    (hp : s.Put host config = some (s', ch)) (h c : String) :
    s'.handle h c = if h = host ∧ c = config then some ch else s.handle h c := by
  rw [Put_eq] at hp
  cases hcl : s.chans.closeIfNotNil ((s.handle host config).getD none) with
  | none => simp [hcl] at hp
  | some hh =>
    simp only [hcl, Option.map_some', Option.some.injEq, Prod.mk.injEq] at hp
    obtain ⟨rfl, rfl⟩ := hp
    rw [handle_eq_mapGetD s h c]
    simp only [FSMStore.handle, mapGet_mapSet]
    by_cases e : host = h
    · subst e
      by_cases e2 : config = c
      · subst e2
        simp [mapGet_mapSet]
      · have e3 : ¬ c = config := fun x => e2 x.symm
        simp [mapGet_mapSet, e2, e3]
    · have e3 : ¬ h = host := fun x => e x.symm
      simp only [e, e3, if_false, false_and]
      unfold mapGetD
      cases mapGet s.store h <;> simp [mapGet]

/-- `Remove` in one piece. -/
theorem Remove_eq (s : FSMStore) (host config : String) :
    s.Remove host config =
      match s.handle host config with
      | some stopCh =>
        (s.chans.closeIfNotNil stopCh).map fun h =>
          ({ store := mapSet s.store host (mapDelete (mapGetD s.store host []) config)
             chans := h } : FSMStore)
      | none => some s := by
  unfold FSMStore.Remove FSMStore.handle
  cases hg : mapGet s.store host with
  | none => simp
  | some hc =>
    simp only [Option.bind_some, mapGetD, hg, Option.getD_some]
    cases hcfg : mapGet hc config <;> simp [hcfg]

theorem handle_Remove (s s' : FSMStore) (host config : String)
    (hr : s.Remove host config = some s') (h c : String) :
    s'.handle h c = if h = host ∧ c = config then none else s.handle h c := by
  rw [Remove_eq] at hr
  cases hh : s.handle host config with
  | none =>
    simp only [hh, Option.some.injEq] at hr
    subst hr
    by_cases e : h = host ∧ c = config
    · obtain ⟨rfl, rfl⟩ := e
      simp [hh]
    · simp [e]
  | some stopCh =>
    simp only [hh] at hr
    cases hcl : s.chans.closeIfNotNil stopCh with
    | none => simp [hcl] at hr
    | some hp =>
      simp only [hcl, Option.map_some', Option.some.injEq] at hr
      subst hr
      rw [handle_eq_mapGetD s h c]
      simp only [FSMStore.handle, mapGet_mapSet]
      by_cases e : host = h
      · subst e
        by_cases e2 : config = c
        · subst e2
          simp [mapGet_mapDelete]
        · have e3 : ¬ c = config := fun x => e2 x.symm
          simp [mapGet_mapDelete, e2, e3]
      · have e3 : ¬ h = host := fun x => e x.symm
        simp only [e, e3, if_false, false_and]
        unfold mapGetD
        cases mapGet s.store h <;> simp [mapGet]

theorem close_ok (h : Chans) (i : Nat) (hi : i ∉ h.closed) :
    h.close i = some { next := h.next, closed := i :: h.closed } := by
  simp [Chans.close, hi]

/-- On a store that satisfies the invariant `Put` does not panic: it returns the
channel made next, and closes the channel of the entry when there was one. -/
theorem Put_ok (s : FSMStore) (hinv : s.Inv) (host config : String) :
    ∃ s', s.Put host config = some (s', some s.chans.next) ∧
      s'.chans.next = s.chans.next + 1 ∧
      s'.store = mapSet s.store host
        (mapSet (mapGetD s.store host []) config (some s.chans.next)) ∧
      ((s.handle host config = none ∧ s'.chans.closed = s.chans.closed) ∨
        ∃ old, s.handle host config = some (some old) ∧
          s'.chans.closed = old :: s.chans.closed) := by
  rw [Put_eq]
  cases hh : s.handle host config with
  | none =>
    refine ⟨⟨mapSet s.store host (mapSet (mapGetD s.store host []) config (some s.chans.next)),
      ⟨s.chans.next + 1, s.chans.closed⟩⟩, ?_, rfl, rfl, Or.inl ⟨rfl, rfl⟩⟩
    simp only [Option.getD_none, Chans.closeIfNotNil, Option.map_some']
  | some ch =>
    obtain ⟨i, rfl, _, hi⟩ := hinv.live host config ch hh
    refine ⟨⟨mapSet s.store host (mapSet (mapGetD s.store host []) config (some s.chans.next)),
      ⟨s.chans.next + 1, i :: s.chans.closed⟩⟩, ?_, rfl, rfl, Or.inr ⟨i, rfl, rfl⟩⟩
    simp only [Option.getD_some, Chans.closeIfNotNil, close_ok _ _ hi, Option.map_some']

theorem inv_Put (s s' : FSMStore) (hinv : s.Inv) (host config : String) (ch : Chan)
    (hp : s.Put host config = some (s', ch)) : s'.Inv := by
  obtain ⟨s2, h1, hnext, hstore, hclosed⟩ := Put_ok s hinv host config
  rw [hp] at h1
  simp only [Option.some.injEq, Prod.mk.injEq] at h1
  obtain ⟨rfl, rfl⟩ := h1
  have hH := handle_Put s s' host config _ hp
  have hsub : ∀ i, i ∈ s'.chans.closed → i ∈ s.chans.closed ∨ s.handle host config = some (some i) := by
    intro i hi
    rcases hclosed with ⟨_, e⟩ | ⟨old, e1, e2⟩
    · left; rwa [e] at hi
    · rw [e2] at hi
      rcases List.mem_cons.1 hi with r | r
      · right; rw [r, e1]
      · left; exact r
  have hsup : ∀ i, i ∈ s.chans.closed → i ∈ s'.chans.closed := by
    intro i hi
    rcases hclosed with ⟨_, e⟩ | ⟨old, _, e2⟩
    · rwa [e]
    · rw [e2]; exact List.mem_cons_of_mem _ hi
  refine ⟨?_, ?_, ?_, ?_, ?_, ?_, ?_⟩
  · rw [hstore]; exact nodup_mapKeys_mapSet _ _ _ hinv.hosts_nodup
  · intro h m hm
    rw [hstore, mapGet_mapSet] at hm
    by_cases e : host = h
    · subst e
      simp only [if_true, Option.some.injEq] at hm
      subst hm
      apply nodup_mapKeys_mapSet
      unfold mapGetD
      cases hg : mapGet s.store host with
      | none => simp [mapKeys]
      | some hc => simpa using hinv.configs_nodup host hc hg
    · simp only [e, if_false] at hm
      exact hinv.configs_nodup h m hm
  · intro h c ch hch
    rw [hH] at hch
    by_cases e : h = host ∧ c = config
    · simp only [e, and_self, if_true, Option.some.injEq] at hch
      subst hch
      refine ⟨_, rfl, by omega, ?_⟩
      intro hmem
      rcases hsub _ hmem with r | r
      · exact absurd (hinv.closed_lt _ r) (by omega)
      · obtain ⟨i, hi, hlt, _⟩ := hinv.live _ _ _ r
        simp only [Option.some.injEq] at hi
        omega
    · simp only [e, if_false] at hch
      obtain ⟨i, rfl, hlt, hnc⟩ := hinv.live _ _ _ hch
      refine ⟨i, rfl, by omega, ?_⟩
      intro hmem
      rcases hsub _ hmem with r | r
      · exact hnc r
      · exact e (hinv.exclusive _ _ _ _ _ hch r)
  · intro h c h' c' i h1 h2
    rw [hH] at h1 h2
    by_cases e : h = host ∧ c = config
    · by_cases e' : h' = host ∧ c' = config
      · exact ⟨e.1.trans e'.1.symm, e.2.trans e'.2.symm⟩
      · simp only [e, and_self, if_true, Option.some.injEq] at h1
        simp only [e', if_false] at h2
        obtain ⟨j, hj, hlt, _⟩ := hinv.live _ _ _ h2
        simp only [Option.some.injEq] at hj
        omega
    · simp only [e, if_false] at h1
      by_cases e' : h' = host ∧ c' = config
      · simp only [e', and_self, if_true, Option.some.injEq] at h2
        obtain ⟨j, hj, hlt, _⟩ := hinv.live _ _ _ h1
        simp only [Option.some.injEq] at hj
        omega
      · simp only [e', if_false] at h2
        exact hinv.exclusive _ _ _ _ _ h1 h2
  · intro i hi hfree
    by_cases e : i = s.chans.next
    · exfalso
      apply hfree host config
      rw [hH, e]
      simp
    · have hlt : i < s.chans.next := by omega
      by_cases hold : s.handle host config = some (some i)
      · rcases hclosed with ⟨e1, _⟩ | ⟨old, e1, e2⟩
        · rw [e1] at hold; cases hold
        · rw [e1] at hold
          simp only [Option.some.injEq] at hold
          rw [e2, hold]
          exact List.mem_cons_self _ _
      · apply hsup
        apply hinv.released i hlt
        intro h c hc
        by_cases e2 : h = host ∧ c = config
        · obtain ⟨rfl, rfl⟩ := e2
          exact hold hc
        · apply hfree h c
          rw [hH]
          simp only [e2, if_false]
          exact hc
  · rcases hclosed with ⟨_, e⟩ | ⟨old, e1, e2⟩
    · rw [e]; exact hinv.closed_nodup
    · rw [e2]
      obtain ⟨i, hi, _, hnc⟩ := hinv.live _ _ _ e1
      simp only [Option.some.injEq] at hi
      subst hi
      exact List.nodup_cons.2 ⟨hnc, hinv.closed_nodup⟩
  · intro i hi
    rcases hsub i hi with r | r
    · have := hinv.closed_lt i r
      omega
    · obtain ⟨j, hj, hlt, _⟩ := hinv.live _ _ _ r
      simp only [Option.some.injEq] at hj
      omega

/-- On a store that satisfies the invariant `Remove` does not panic: an absent
entry leaves the store as it is, a present one has its channel closed. -/
theorem Remove_ok (s : FSMStore) (hinv : s.Inv) (host config : String) :
    ∃ s', s.Remove host config = some s' ∧ s'.chans.next = s.chans.next ∧
      ((s.handle host config = none ∧ s' = s) ∨
        ∃ i, s.handle host config = some (some i) ∧
          s'.chans.closed = i :: s.chans.closed ∧
          s'.store = mapSet s.store host (mapDelete (mapGetD s.store host []) config)) := by
  rw [Remove_eq]
  cases hh : s.handle host config with
  | none => exact ⟨s, rfl, rfl, Or.inl ⟨rfl, rfl⟩⟩
  | some ch =>
    obtain ⟨i, rfl, _, hi⟩ := hinv.live host config ch hh
    refine ⟨⟨mapSet s.store host (mapDelete (mapGetD s.store host []) config),
      ⟨s.chans.next, i :: s.chans.closed⟩⟩, ?_, rfl, Or.inr ⟨i, rfl, rfl, rfl⟩⟩
    simp only [Chans.closeIfNotNil, close_ok _ _ hi, Option.map_some']

theorem inv_Remove (s s' : FSMStore) (hinv : s.Inv) (host config : String)
    (hr : s.Remove host config = some s') : s'.Inv := by
  obtain ⟨s2, h1, hnext, hcases⟩ := Remove_ok s hinv host config
  rw [hr] at h1
  simp only [Option.some.injEq] at h1
  subst h1
  have hH := handle_Remove s s' host config hr
  rcases hcases with ⟨_, e⟩ | ⟨old, hold, hclosed, hstore⟩
  · rw [e]; exact hinv
  obtain ⟨_, hj, holdlt, holdnc⟩ := hinv.live _ _ _ hold
  simp only [Option.some.injEq] at hj
  subst hj
  refine ⟨?_, ?_, ?_, ?_, ?_, ?_, ?_⟩
  · rw [hstore]; exact nodup_mapKeys_mapSet _ _ _ hinv.hosts_nodup
  · intro h m hm
    rw [hstore, mapGet_mapSet] at hm
    by_cases e : host = h
    · subst e
      simp only [if_true, Option.some.injEq] at hm
      subst hm
      apply nodup_mapKeys_mapDelete
      unfold mapGetD
      cases hg : mapGet s.store host with
      | none => simp [mapKeys]
      | some hc => simpa using hinv.configs_nodup host hc hg
    · simp only [e, if_false] at hm
      exact hinv.configs_nodup h m hm
  · intro h c ch hch
    rw [hH] at hch
    by_cases e : h = host ∧ c = config
    · simp [e] at hch
    · simp only [e, if_false] at hch
      obtain ⟨i, rfl, hlt, hnc⟩ := hinv.live _ _ _ hch
      refine ⟨i, rfl, by omega, ?_⟩
      rw [hclosed]
      intro hmem
      rcases List.mem_cons.1 hmem with r | r
      · subst r
        exact e (hinv.exclusive _ _ _ _ _ hch hold)
      · exact hnc r
  · intro h c h' c' i h1 h2
    rw [hH] at h1 h2
    by_cases e : h = host ∧ c = config
    · simp [e] at h1
    · by_cases e' : h' = host ∧ c' = config
      · simp [e'] at h2
      · simp only [e, if_false] at h1
        simp only [e', if_false] at h2
        exact hinv.exclusive _ _ _ _ _ h1 h2
  · intro i hi hfree
    rw [hclosed]
    by_cases e : i = old
    · rw [e]; exact List.mem_cons_self _ _
    · apply List.mem_cons_of_mem
      apply hinv.released i (by omega)
      intro h c hc
      by_cases e2 : h = host ∧ c = config
      · obtain ⟨rfl, rfl⟩ := e2
        rw [hold] at hc
        simp only [Option.some.injEq] at hc
        exact e hc.symm
      · apply hfree h c
        rw [hH]
        simp only [e2, if_false]
        exact hc
  · rw [hclosed]
    exact List.nodup_cons.2 ⟨holdnc, hinv.closed_nodup⟩
  · intro i hi
    rw [hclosed] at hi
    rcases List.mem_cons.1 hi with r | r
    · omega
    · have := hinv.closed_lt i r
      omega

/-! ## `clean` closes every channel of the store -/

theorem closeAll_nil (h : Chans) : closeAll h [] = some h := rfl

theorem closeAll_cons (h : Chans) (ch : Chan) (chs : List Chan) :
    closeAll h (ch :: chs) = (h.closeIfNotNil ch).bind fun h' => closeAll h' chs := by
  simp [closeAll, List.foldlM_cons]

theorem closeAll_append (h : Chans) (a b : List Chan) :
    closeAll h (a ++ b) = (closeAll h a).bind fun h' => closeAll h' b := by
  simp [closeAll, List.foldlM_append]

theorem cleanConfigs_eq (k : String) (rest : GoMap (GoMap Chan)) (m : GoMap Chan) (h : Chans)
    (hn : (mapKeys m).Nodup) :
    (mapKeys m).foldlM (cleanConfig k) ({ store := (k, m) :: rest, chans := h } : FSMStore) =
      (closeAll h (m.map Prod.snd)).map fun h' =>
        ({ store := (k, []) :: rest, chans := h' } : FSMStore) := by
  induction m generalizing h with
  | nil => simp [mapKeys, closeAll_nil]
  | cons p m ih =>
    obtain ⟨cfg, ch⟩ := p
    have h1 : cfg ∉ mapKeys m ∧ (mapKeys m).Nodup := by simpa [mapKeys] using hn
    have hdel : mapDelete ((cfg, ch) :: m) cfg = m := by
      have := mapDelete_of_not_mem m cfg h1.1
      simpa [mapDelete] using this
    have hstep : cleanConfig k ({ store := (k, (cfg, ch) :: m) :: rest, chans := h } : FSMStore) cfg
        = (h.closeIfNotNil ch).map fun h' =>
            ({ store := (k, m) :: rest, chans := h' } : FSMStore) := by
      simp only [cleanConfig, mapGetD, mapGet, if_true, Option.getD_some, hdel, mapSet]
    simp only [mapKeys, List.map_cons, List.foldlM_cons, closeAll_cons]
    rw [hstep]
    cases hc : h.closeIfNotNil ch with
    | none => simp
    | some h' =>
      have := ih h' h1.2
      simp only [mapKeys] at this
      simp [this]

theorem cleanHost_eq (k : String) (rest : GoMap (GoMap Chan)) (m : GoMap Chan) (h : Chans)
    (hn : (mapKeys m).Nodup) (hk : k ∉ mapKeys rest) :
    cleanHost ({ store := (k, m) :: rest, chans := h } : FSMStore) k =
      (closeAll h (m.map Prod.snd)).map fun h' =>
        ({ store := rest, chans := h' } : FSMStore) := by
  have hdel : mapDelete ((k, ([] : GoMap Chan)) :: rest) k = rest := by
    have := mapDelete_of_not_mem rest k hk
    simpa [mapDelete] using this
  have hget : mapGetD ((k, m) :: rest) k [] = m := by simp [mapGetD, mapGet]
  unfold cleanHost
  simp only [hget]
  rw [cleanConfigs_eq k rest m h hn]
  cases closeAll h (m.map Prod.snd) with
  | none => simp
  | some h' => simp [hdel]

/-- `clean` in one piece: the channels of the store are closed one after the
other, and the map is left empty. -/
theorem clean_eq (store : GoMap (GoMap Chan)) (h : Chans)
    (hn : (mapKeys store).Nodup) (hc : ∀ kv ∈ store, (mapKeys kv.2).Nodup) :
    FSMStore.clean { store := store, chans := h } =
      (closeAll h (storeHandles store)).map fun h' =>
        ({ store := [], chans := h' } : FSMStore) := by
  unfold FSMStore.clean
  induction store generalizing h with
  | nil => simp [mapKeys, storeHandles, closeAll_nil]
  | cons p store ih =>
    obtain ⟨k, m⟩ := p
    have h1 : k ∉ mapKeys store ∧ (mapKeys store).Nodup := by simpa [mapKeys] using hn
    have hm : (mapKeys m).Nodup := hc (k, m) (List.mem_cons_self _ _)
    have hc' : ∀ kv ∈ store, (mapKeys kv.2).Nodup :=
      fun kv hkv => hc kv (List.mem_cons_of_mem _ hkv)
    simp only [mapKeys, List.map_cons, List.foldlM_cons, storeHandles, closeAll_append]
    rw [cleanHost_eq k store m h hm h1.1]
    cases hcl : closeAll h (m.map Prod.snd) with
    | none => simp
    | some h' =>
      have := ih h' h1.2 hc'
      simp only [mapKeys] at this
      simp [this]

theorem closeAll_ok (chs : List Chan) (h : Chans)
    (hlive : ∀ ch ∈ chs, ∃ i, ch = some i ∧ i ∉ h.closed) (hnd : chs.Nodup) :
    ∃ h', closeAll h chs = some h' ∧ h'.next = h.next ∧
      (∀ i, i ∈ h'.closed ↔ i ∈ h.closed ∨ some i ∈ chs) ∧
      (h.closed.Nodup → h'.closed.Nodup) := by
  induction chs generalizing h with
  | nil => exact ⟨h, rfl, rfl, by simp, id⟩
  | cons ch chs ih =>
    obtain ⟨i, rfl, hi⟩ := hlive _ (List.mem_cons_self _ _)
    have hnd' : some i ∉ chs ∧ chs.Nodup := List.nodup_cons.1 hnd
    have hlive' : ∀ ch ∈ chs, ∃ j, ch = some j ∧
        j ∉ ({ next := h.next, closed := i :: h.closed } : Chans).closed := by
      intro ch hch
      obtain ⟨j, rfl, hj⟩ := hlive ch (List.mem_cons_of_mem _ hch)
      refine ⟨j, rfl, ?_⟩
      intro hmem
      rcases List.mem_cons.1 hmem with r | r
      · subst r
        exact hnd'.1 hch
      · exact hj r
    obtain ⟨h', e1, e2, e3, e4⟩ := ih _ hlive' hnd'.2
    refine ⟨h', ?_, e2, ?_, ?_⟩
    · rw [closeAll_cons]
      simp only [Chans.closeIfNotNil, close_ok _ _ hi, Option.bind_some]
      exact e1
    · intro j
      rw [e3 j]
      simp only [List.mem_cons, Option.some.injEq]
      tauto
    · intro hn
      exact e4 (List.nodup_cons.2 ⟨hi, hn⟩)

theorem storeHandle_cons_self (k : String) (m : GoMap Chan) (rest : GoMap (GoMap Chan))
    (c : String) : storeHandle ((k, m) :: rest) k c = mapGet m c := by
  simp [storeHandle, mapGet]

theorem storeHandle_cons_of_mem (k : String) (m : GoMap Chan) (rest : GoMap (GoMap Chan))
    (hk : k ∉ mapKeys rest) (h c : String) (ch : Chan) (hh : storeHandle rest h c = some ch) :
    storeHandle ((k, m) :: rest) h c = some ch := by
  have hne : ¬ k = h := by
    rintro rfl
    rw [not_mem_mapKeys_iff] at hk
    simp [storeHandle, hk] at hh
  simpa [storeHandle, mapGet, hne] using hh

theorem mem_vals_iff (m : GoMap Chan) (hn : (mapKeys m).Nodup) (ch : Chan) :
    ch ∈ m.map Prod.snd ↔ ∃ c, mapGet m c = some ch := by
  constructor
  · intro h
    obtain ⟨p, hp, rfl⟩ := List.mem_map.1 h
    exact ⟨p.1, mapGet_of_mem m p.1 p.2 hn hp⟩
  · rintro ⟨c, hc⟩
    exact List.mem_map.2 ⟨(c, ch), mem_of_mapGet m c ch hc, rfl⟩

theorem mem_storeHandles_iff (store : GoMap (GoMap Chan))
    (hn : (mapKeys store).Nodup) (hc : ∀ kv ∈ store, (mapKeys kv.2).Nodup) (ch : Chan) :
    ch ∈ storeHandles store ↔ ∃ h c, storeHandle store h c = some ch := by
  induction store with
  | nil => simp [storeHandles, storeHandle, mapGet]
  | cons p store ih =>
    obtain ⟨k, m⟩ := p
    have h1 : k ∉ mapKeys store ∧ (mapKeys store).Nodup := by simpa [mapKeys] using hn
    have hm : (mapKeys m).Nodup := hc (k, m) (List.mem_cons_self _ _)
    have hc' : ∀ kv ∈ store, (mapKeys kv.2).Nodup :=
      fun kv hkv => hc kv (List.mem_cons_of_mem _ hkv)
    simp only [storeHandles, List.mem_append]
    rw [mem_vals_iff m hm, ih h1.2 hc']
    constructor
    · rintro (⟨c, hc⟩ | ⟨h, c, hh⟩)
      · exact ⟨k, c, by rw [storeHandle_cons_self]; exact hc⟩
      · exact ⟨h, c, storeHandle_cons_of_mem k m store h1.1 h c ch hh⟩
    · rintro ⟨h, c, hh⟩
      by_cases e : k = h
      · subst e
        rw [storeHandle_cons_self] at hh
        exact Or.inl ⟨c, hh⟩
      · right
        refine ⟨h, c, ?_⟩
        simpa [storeHandle, mapGet, e] using hh

theorem nodup_vals (m : GoMap Chan) (hn : (mapKeys m).Nodup)
    (hinj : ∀ c c' ch, mapGet m c = some ch → mapGet m c' = some ch → c = c') :
    (m.map Prod.snd).Nodup := by
  induction m with
  | nil => simp
  | cons p m ih =>
    obtain ⟨c0, ch0⟩ := p
    have h1 : c0 ∉ mapKeys m ∧ (mapKeys m).Nodup := by simpa [mapKeys] using hn
    have hget : ∀ c ch, mapGet m c = some ch → mapGet ((c0, ch0) :: m) c = some ch := by
      intro c ch hc
      have hne : ¬ c0 = c := by
        rintro rfl
        rw [not_mem_mapKeys_iff] at h1
        simp [h1.1] at hc
      simpa [mapGet, hne] using hc
    simp only [List.map_cons, List.nodup_cons]
    constructor
    · intro hmem
      obtain ⟨c1, hc1⟩ := (mem_vals_iff m h1.2 ch0).1 hmem
      have e := hinj c1 c0 ch0 (hget c1 ch0 hc1) (by simp [mapGet])
      subst e
      rw [not_mem_mapKeys_iff] at h1
      simp [h1.1] at hc1
    · apply ih h1.2
      intro c c' ch hc hc'
      exact hinj c c' ch (hget c ch hc) (hget c' ch hc')

theorem nodup_storeHandles (store : GoMap (GoMap Chan))
    (hn : (mapKeys store).Nodup) (hc : ∀ kv ∈ store, (mapKeys kv.2).Nodup)
    (hinj : ∀ h c h' c' ch, storeHandle store h c = some ch →
      storeHandle store h' c' = some ch → h = h' ∧ c = c') :
    (storeHandles store).Nodup := by
  induction store with
  | nil => simp [storeHandles]
  | cons p store ih =>
    obtain ⟨k, m⟩ := p
    have h1 : k ∉ mapKeys store ∧ (mapKeys store).Nodup := by simpa [mapKeys] using hn
    have hm : (mapKeys m).Nodup := hc (k, m) (List.mem_cons_self _ _)
    have hc' : ∀ kv ∈ store, (mapKeys kv.2).Nodup :=
      fun kv hkv => hc kv (List.mem_cons_of_mem _ hkv)
    simp only [storeHandles]
    rw [List.nodup_append]
    refine ⟨?_, ?_, ?_⟩
    · apply nodup_vals m hm
      intro c c' ch e1 e2
      exact (hinj k c k c' ch (by rw [storeHandle_cons_self]; exact e1)
        (by rw [storeHandle_cons_self]; exact e2)).2
    · apply ih h1.2 hc'
      intro h c h' c' ch e1 e2
      exact hinj h c h' c' ch (storeHandle_cons_of_mem k m store h1.1 h c ch e1)
        (storeHandle_cons_of_mem k m store h1.1 h' c' ch e2)
    · intro ch hch1 hch2
      obtain ⟨c, e1⟩ := (mem_vals_iff m hm ch).1 hch1
      obtain ⟨h', c', e2⟩ := (mem_storeHandles_iff store h1.2 hc' ch).1 hch2
      have e := (hinj k c h' c' ch (by rw [storeHandle_cons_self]; exact e1)
        (storeHandle_cons_of_mem k m store h1.1 h' c' ch e2)).1
      subst e
      rw [not_mem_mapKeys_iff] at h1
      simp [storeHandle, h1.1] at e2

theorem handle_eq_storeHandle (s : FSMStore) (host config : String) :
    s.handle host config = storeHandle s.store host config := rfl

/-- On a store that satisfies the invariant `clean` does not panic: it empties
the map and closes exactly the channels that the entries held. -/
theorem clean_ok (s : FSMStore) (hinv : s.Inv) :
    ∃ s', s.clean = some s' ∧ s'.store = [] ∧ s'.chans.next = s.chans.next ∧
      (∀ i, i ∈ s'.chans.closed ↔
        i ∈ s.chans.closed ∨ ∃ h c, s.handle h c = some (some i)) ∧
      s'.chans.closed.Nodup := by
  have hc : ∀ kv ∈ s.store, (mapKeys kv.2).Nodup := by
    intro kv hkv
    exact hinv.configs_nodup kv.1 kv.2 (mapGet_of_mem s.store kv.1 kv.2 hinv.hosts_nodup hkv)
  have hmem := mem_storeHandles_iff s.store hinv.hosts_nodup hc
  have hlive : ∀ ch ∈ storeHandles s.store, ∃ i, ch = some i ∧ i ∉ s.chans.closed := by
    intro ch hch
    obtain ⟨h, c, hh⟩ := (hmem ch).1 hch
    obtain ⟨i, e, _, hi⟩ := hinv.live h c ch hh
    exact ⟨i, e, hi⟩
  have hnd : (storeHandles s.store).Nodup := by
    apply nodup_storeHandles s.store hinv.hosts_nodup hc
    intro h c h' c' ch e1 e2
    obtain ⟨i, rfl, _, _⟩ := hinv.live h c ch e1
    exact hinv.exclusive h c h' c' i e1 e2
  obtain ⟨h', e1, e2, e3, e4⟩ := closeAll_ok (storeHandles s.store) s.chans hlive hnd
  refine ⟨{ store := [], chans := h' }, ?_, rfl, e2, ?_, e4 hinv.closed_nodup⟩
  · have := clean_eq s.store s.chans hinv.hosts_nodup hc
    rw [e1] at this
    exact this
  · intro i
    rw [e3 i, hmem (some i)]
    rfl

theorem inv_clean (s s' : FSMStore) (hinv : s.Inv) (hc : s.clean = some s') : s'.Inv := by
  obtain ⟨s2, h1, hstore, hnext, hclosed, hnd⟩ := clean_ok s hinv
  rw [hc] at h1
  simp only [Option.some.injEq] at h1
  subst h1
  have hH : ∀ h c, s'.handle h c = none := by
    intro h c
    simp [FSMStore.handle, hstore, mapGet]
  refine ⟨?_, ?_, ?_, ?_, ?_, hnd, ?_⟩
  · simp [hstore, mapKeys]
  · simp [hstore, mapGet]
  · intro h c ch hch
    rw [hH] at hch
    cases hch
  · intro h c h' c' i h1
    rw [hH] at h1
    cases h1
  · intro i hi _
    rw [hclosed]
    rw [hnext] at hi
    by_cases e : ∃ h c, s.handle h c = some (some i)
    · exact Or.inr e
    · left
      apply hinv.released i hi
      intro h c hc
      exact e ⟨h, c, hc⟩
  · intro i hi
    rw [hnext]
    rcases (hclosed i).1 hi with r | ⟨h, c, r⟩
    · exact hinv.closed_lt i r
    · obtain ⟨j, hj, hlt, _⟩ := hinv.live _ _ _ r
      simp only [Option.some.injEq] at hj
      omega

theorem mem_List_iff (s : FSMStore) (host config : String) :
    (∃ l, s.List host = some l ∧ config ∈ l) ↔ ∃ ch, s.handle host config = some ch := by
  unfold FSMStore.List FSMStore.handle keys
  cases mapGet s.store host with
  | none => simp
  | some m => simp [mem_mapKeys_iff]

theorem inv_storeAC : storeAC.Inv :=
  inv_Put NewFSMStore storeAC inv_NewFSMStore "a" "c" (some 0) (by decide)

/-- C3: on a store that satisfies the invariant, `Put(host, config)` returns a
channel `i` that had not been made before the call and is not closed, and stores
it for `(host, config)`; the channel that `(host, config)` held before, if any, is
closed and no other channel is; `config` is in `List(host)` afterwards; every other
entry keeps the channel it had. -/
theorem C3_Put (s : FSMStore) (hinv : s.Inv) (host config : String) :
    ∃ s' i, s.Put host config = some (s', some i) ∧
      s.chans.next ≤ i ∧ i < s'.chans.next ∧ i ∉ s'.chans.closed ∧
      s'.handle host config = some (some i) ∧
      (s.handle host config = none → s'.chans.closed = s.chans.closed) ∧
      (∀ old, s.handle host config = some old →
        ∃ j, old = some j ∧ j ∉ s.chans.closed ∧ s'.chans.closed = j :: s.chans.closed) ∧
      (∃ l, s'.List host = some l ∧ config ∈ l) ∧
      (∀ h c, ¬ (h = host ∧ c = config) → s'.handle h c = s.handle h c) := by
  obtain ⟨s', hp, hnext, _, hclosed⟩ := Put_ok s hinv host config
  have hH := handle_Put s s' host config _ hp
  have hinv' := inv_Put s s' hinv host config _ hp
  have hst : s'.handle host config = some (some s.chans.next) := by rw [hH]; simp
  obtain ⟨i, hi, _, hnc⟩ := hinv'.live host config _ hst
  simp only [Option.some.injEq] at hi
  subst hi
  refine ⟨s', s.chans.next, hp, le_refl _, by omega, hnc, hst, ?_, ?_, ?_, ?_⟩
  · intro hnone
    rcases hclosed with ⟨_, e⟩ | ⟨old, e1, _⟩
    · exact e
    · rw [hnone] at e1; cases e1
  · intro old hold
    rcases hclosed with ⟨e1, _⟩ | ⟨j, e1, e2⟩
    · rw [hold] at e1; cases e1
    · rw [hold] at e1
      simp only [Option.some.injEq] at e1
      obtain ⟨k, hk, _, hknc⟩ := hinv.live host config _ hold
      subst e1
      simp only [Option.some.injEq] at hk
      subst hk
      exact ⟨j, rfl, hknc, e2⟩
  · exact (mem_List_iff s' host config).2 ⟨_, hst⟩
  · intro h c hne
    rw [hH]
    simp [hne]

theorem C3_Put_witness :
    storeAC.Inv ∧ ∃ s' i, storeAC.Put "a" "c" = some (s', some i) ∧
      storeAC.chans.next ≤ i ∧ i < s'.chans.next ∧ i ∉ s'.chans.closed ∧
      s'.handle "a" "c" = some (some i) ∧
      (storeAC.handle "a" "c" = none → s'.chans.closed = storeAC.chans.closed) ∧
      (∀ old, storeAC.handle "a" "c" = some old →
        ∃ j, old = some j ∧ j ∉ storeAC.chans.closed ∧
          s'.chans.closed = j :: storeAC.chans.closed) ∧
      (∃ l, s'.List "a" = some l ∧ "c" ∈ l) ∧
      (∀ h c, ¬ (h = "a" ∧ c = "c") → s'.handle h c = storeAC.handle h c) :=
  ⟨inv_storeAC, C3_Put storeAC inv_storeAC "a" "c"⟩

/-- C4: on a store that satisfies the invariant, `Remove(host, config)` on a
present entry closes the channel of that entry, and no other, and deletes the
entry, so that `config` is no longer in `List(host)`; on an absent entry it
leaves the store and the channels as they are; in both cases every other entry
keeps its channel. -/
theorem C4_Remove (s : FSMStore) (hinv : s.Inv) (host config : String) :
    ∃ s', s.Remove host config = some s' ∧
      (∀ old, s.handle host config = some old →
        ∃ j, old = some j ∧ j ∉ s.chans.closed ∧ s'.chans.closed = j :: s.chans.closed) ∧
      s'.handle host config = none ∧
      (¬ ∃ l, s'.List host = some l ∧ config ∈ l) ∧
      (s.handle host config = none → s' = s) ∧
      (∀ h c, ¬ (h = host ∧ c = config) → s'.handle h c = s.handle h c) := by
  obtain ⟨s', hr, _, hcases⟩ := Remove_ok s hinv host config
  have hH := handle_Remove s s' host config hr
  have hgone : s'.handle host config = none := by rw [hH]; simp
  refine ⟨s', hr, ?_, hgone, ?_, ?_, ?_⟩
  · intro old hold
    rcases hcases with ⟨e1, _⟩ | ⟨j, e1, e2, _⟩
    · rw [hold] at e1; cases e1
    · rw [hold] at e1
      simp only [Option.some.injEq] at e1
      obtain ⟨k, hk, _, hknc⟩ := hinv.live host config _ hold
      subst e1
      simp only [Option.some.injEq] at hk
      subst hk
      exact ⟨j, rfl, hknc, e2⟩
  · rw [mem_List_iff, hgone]
    simp
  · intro hnone
    rcases hcases with ⟨_, e⟩ | ⟨j, e1, _⟩
    · exact e
    · rw [hnone] at e1; cases e1
  · intro h c hne
    rw [hH]
    simp [hne]

theorem C4_Remove_witness :
    storeAC.Inv ∧ ∃ s', storeAC.Remove "a" "c" = some s' ∧
      (∀ old, storeAC.handle "a" "c" = some old →
        ∃ j, old = some j ∧ j ∉ storeAC.chans.closed ∧
          s'.chans.closed = j :: storeAC.chans.closed) ∧
      s'.handle "a" "c" = none ∧
      (¬ ∃ l, s'.List "a" = some l ∧ "c" ∈ l) ∧
      (storeAC.handle "a" "c" = none → s' = storeAC) ∧
      (∀ h c, ¬ (h = "a" ∧ c = "c") → s'.handle h c = storeAC.handle h c) :=
  ⟨inv_storeAC, C4_Remove storeAC inv_storeAC "a" "c"⟩

/-! ## The state machine -/

theorem applyCommand_ok (c : FSM) (hinv : c.store.Inv) (cmd : FSMCommand) :
    ∃ c', c.applyCommand cmd = some c' ∧ c'.store.Inv ∧ c'.Name = c.Name := by
  unfold FSM.applyCommand
  by_cases h1 : cmd.type = cmdAssignConfig
  · obtain ⟨s', hp, _⟩ := Put_ok c.store hinv cmd.Host cmd.Config
    have hinv' := inv_Put c.store s' hinv _ _ _ hp
    simp only [h1, if_true, hp, Option.map_some']
    by_cases h2 : cmd.Host = c.Name
    · exact ⟨{ c with store := s', tasks := c.tasks ++ [(cmd.Config, some c.store.chans.next)] },
        by simp only [h2, if_true], hinv', rfl⟩
    · exact ⟨{ c with store := s' }, by simp only [h2, if_false], hinv', rfl⟩
  · by_cases h2 : cmd.type = cmdRemoveConfig
    · obtain ⟨s', hr, _⟩ := Remove_ok c.store hinv cmd.Host cmd.Config
      have hinv' := inv_Remove c.store s' hinv _ _ hr
      rw [if_neg h1, if_pos h2, hr]
      exact ⟨{ c with store := s' }, rfl, hinv', rfl⟩
    · rw [if_neg h1, if_neg h2]
      exact ⟨c, rfl, hinv, rfl⟩

theorem Apply_ok {Bytes : Type} (json : JSON Bytes) (c : FSM) (hinv : c.store.Inv)
    (data : Bytes) :
    ∃ c', FSM.Apply json c data = some c' ∧ c'.store.Inv ∧ c'.Name = c.Name := by
  unfold FSM.Apply
  cases json.UnmarshalCommand data with
  | none => exact ⟨c, rfl, hinv, rfl⟩
  | some cmd => exact applyCommand_ok c hinv cmd

theorem applyAll_ok {Bytes : Type} (json : JSON Bytes) (log : List Bytes) (c : FSM)
    (hinv : c.store.Inv) :
    ∃ c', FSM.applyAll json c log = some c' ∧ c'.store.Inv ∧ c'.Name = c.Name := by
  induction log generalizing c with
  | nil => exact ⟨c, rfl, hinv, rfl⟩
  | cons data log ih =>
    obtain ⟨c1, h1, hinv1, hn1⟩ := Apply_ok json c hinv data
    obtain ⟨c2, h2, hinv2, hn2⟩ := ih c1 hinv1
    refine ⟨c2, ?_, hinv2, hn2.trans hn1⟩
    unfold FSM.applyAll at h2 ⊢
    simp only [List.foldlM_cons, h1, Option.bind_eq_bind, Option.bind_some]
    exact h2

theorem applyCommand_store_congr (c1 c2 : FSM) (h : c1.store = c2.store) (cmd : FSMCommand) :
    (c1.applyCommand cmd).map FSM.store = (c2.applyCommand cmd).map FSM.store := by
  unfold FSM.applyCommand
  rw [h]
  by_cases h1 : cmd.type = cmdAssignConfig
  · rw [if_pos h1, if_pos h1, Option.map_map, Option.map_map]
    congr 1
    funext r
    simp only [Function.comp]
    split_ifs <;> rfl
  · by_cases h2 : cmd.type = cmdRemoveConfig
    · rw [if_neg h1, if_neg h1, if_pos h2, if_pos h2, Option.map_map, Option.map_map]
      rfl
    · rw [if_neg h1, if_neg h1, if_neg h2, if_neg h2]
      simp [h]

theorem Apply_store_congr {Bytes : Type} (json : JSON Bytes) (c1 c2 : FSM)
    (h : c1.store = c2.store) (data : Bytes) :
    (FSM.Apply json c1 data).map FSM.store = (FSM.Apply json c2 data).map FSM.store := by
  unfold FSM.Apply
  cases json.UnmarshalCommand data with
  | none => simp [h]
  | some cmd => exact applyCommand_store_congr c1 c2 h cmd

theorem applyAll_store_congr {Bytes : Type} (json : JSON Bytes) (log : List Bytes)
    (c1 c2 : FSM) (h : c1.store = c2.store) :
    (FSM.applyAll json c1 log).map FSM.store = (FSM.applyAll json c2 log).map FSM.store := by
  induction log generalizing c1 c2 with
  | nil => simp [FSM.applyAll, h]
  | cons data log ih =>
    have hstep := Apply_store_congr json c1 c2 h data
    unfold FSM.applyAll at ih ⊢
    simp only [List.foldlM_cons, Option.bind_eq_bind]
    cases e1 : FSM.Apply json c1 data with
    | none =>
      cases e2 : FSM.Apply json c2 data with
      | none => rfl
      | some r2 => simp [e1, e2] at hstep
    | some r1 =>
      cases e2 : FSM.Apply json c2 data with
      | none => simp [e1, e2] at hstep
      | some r2 =>
        simp only [e1, e2, Option.map_some', Option.some.injEq] at hstep
        exact ih r1 r2 hstep

/-- C8: when the data of a log entry does not decode to a command, `Apply`
returns without a panic and leaves the state machine as it was: the store, the
closed channels and the started task runners are unchanged. -/
theorem C8_Apply_undecodable {Bytes : Type} (json : JSON Bytes) (c : FSM) (data : Bytes)
    (hbad : json.UnmarshalCommand data = none) :
    FSM.Apply json c data = some c := by
  simp [FSM.Apply, hbad]

theorem C8_Apply_undecodable_witness :
    docJSON.UnmarshalCommand Doc.garbage = none ∧
      FSM.Apply docJSON { Name := "b", store := storeAC, tasks := [] } Doc.garbage =
        some { Name := "b", store := storeAC, tasks := [] } :=
  ⟨rfl, C8_Apply_undecodable docJSON _ Doc.garbage rfl⟩

/-- C9: the same log applied with `Apply` to two new state machines, whatever
their node names, is applied without a panic on both and leaves equal stores,
hence equal dumps (the same hosts and the same configs for each host). -/
theorem C9_Apply_deterministic {Bytes : Type} (json : JSON Bytes) (log : List Bytes)
    (name1 name2 : String) :
    ∃ c1 c2, FSM.applyAll json (FSM.init name1) log = some c1 ∧
      FSM.applyAll json (FSM.init name2) log = some c2 ∧
      c1.store.Dump = c2.store.Dump ∧
      dumpHosts c1.store.Dump = dumpHosts c2.store.Dump ∧
      ∀ host, dumpConfigs c1.store.Dump host = dumpConfigs c2.store.Dump host := by
  obtain ⟨c1, h1, _, _⟩ := applyAll_ok json log (FSM.init name1) inv_NewFSMStore
  obtain ⟨c2, h2, _, _⟩ := applyAll_ok json log (FSM.init name2) inv_NewFSMStore
  have h := applyAll_store_congr json log (FSM.init name1) (FSM.init name2) rfl
  rw [h1, h2] at h
  simp only [Option.map_some', Option.some.injEq] at h
  refine ⟨c1, c2, h1, h2, ?_, ?_, ?_⟩
  · rw [h]
  · rw [h]
  · intro host; rw [h]

/-! ## The loops of `Restore` -/

theorem putsFrom_refl (c : FSM) (hinv : c.store.Inv) : PutsFrom c c [] where
  inv := hinv
  name := rfl
  next_le := le_refl _
  closed_mono := fun _ h => h
  hosts := by simp
  frame := fun _ _ _ => rfl
  fresh := by simp
  tasks := ⟨[], by simp⟩

theorem putsFrom_trans (c c1 c2 : FSM) (p1 p2 : List (String × String))
    (h1 : PutsFrom c c1 p1) (h2 : PutsFrom c1 c2 p2) : PutsFrom c c2 (p1 ++ p2) where
  inv := h2.inv
  name := h2.name.trans h1.name
  next_le := le_trans h1.next_le h2.next_le
  closed_mono := fun i hi => h2.closed_mono i (h1.closed_mono i hi)
  hosts := by
    intro h
    rw [h2.hosts h, h1.hosts h]
    simp only [List.mem_append]
    constructor
    · rintro ((r | ⟨cfg, r⟩) | ⟨cfg, r⟩)
      · exact Or.inl r
      · exact Or.inr ⟨cfg, Or.inl r⟩
      · exact Or.inr ⟨cfg, Or.inr r⟩
    · rintro (r | ⟨cfg, r | r⟩)
      · exact Or.inl (Or.inl r)
      · exact Or.inl (Or.inr ⟨cfg, r⟩)
      · exact Or.inr ⟨cfg, r⟩
  frame := by
    intro h cfg hn
    rw [List.mem_append, not_or] at hn
    rw [h2.frame h cfg hn.2, h1.frame h cfg hn.1]
  fresh := by
    intro h cfg hm
    by_cases e2 : (h, cfg) ∈ p2
    · obtain ⟨i, hi, hle⟩ := h2.fresh h cfg e2
      exact ⟨i, hi, le_trans h1.next_le hle⟩
    · have e1 : (h, cfg) ∈ p1 := by
        rcases List.mem_append.1 hm with r | r
        · exact r
        · exact absurd r e2
      obtain ⟨i, hi, hle⟩ := h1.fresh h cfg e1
      exact ⟨i, by rw [h2.frame h cfg e2]; exact hi, hle⟩
  tasks := by
    obtain ⟨n1, e1, m1, b1, d1⟩ := h1.tasks
    obtain ⟨n2, e2, m2, b2, d2⟩ := h2.tasks
    refine ⟨n1 ++ n2, ?_, ?_, ?_, ?_⟩
    · rw [e2, e1, List.append_assoc]
    · rw [h1.name] at m2
      rw [List.map_append, List.filter_append, List.map_append, m1, m2]
    · intro t ht
      rcases List.mem_append.1 ht with r | r
      · exact b1 t r
      · obtain ⟨i, hi, hle⟩ := b2 t r
        exact ⟨i, hi, le_trans h1.next_le hle⟩
    · intro cfg hm
      rw [h1.name] at d2
      by_cases x2 : (c.Name, cfg) ∈ p2
      · obtain ⟨i, hi, hh⟩ := d2 cfg x2
        exact ⟨i, List.mem_append_right _ hi, hh⟩
      · have x1 : (c.Name, cfg) ∈ p1 := by
          rcases List.mem_append.1 hm with r | r
          · exact r
          · exact absurd r x2
        obtain ⟨i, hi, hh⟩ := d1 cfg x1
        exact ⟨i, List.mem_append_left _ hi, by rw [h2.frame _ _ x2]; exact hh⟩

theorem restoreConfig_putsFrom (host : String) (c : FSM) (hinv : c.store.Inv)
    (config : String) :
    ∃ c', restoreConfig host c config = some c' ∧ PutsFrom c c' [(host, config)] := by
  obtain ⟨s', hp, hnext, hstore, hclosed⟩ := Put_ok c.store hinv host config
  have hH := handle_Put c.store s' host config _ hp
  have hinv' := inv_Put c.store s' hinv host config _ hp
  have hhosts : ∀ h, h ∈ mapKeys s'.store ↔
      h ∈ mapKeys c.store.store ∨ ∃ cfg, (h, cfg) ∈ [(host, config)] := by
    intro h
    rw [hstore, mem_mapKeys_mapSet]
    simp only [List.mem_singleton, Prod.mk.injEq, exists_eq_right]
    tauto
  have hmono : ∀ i ∈ c.store.chans.closed, i ∈ s'.chans.closed := by
    intro i hi
    rcases hclosed with ⟨_, e⟩ | ⟨old, _, e⟩
    · rwa [e]
    · rw [e]; exact List.mem_cons_of_mem _ hi
  have hframe : ∀ h cfg, (h, cfg) ∉ [(host, config)] →
      s'.handle h cfg = c.store.handle h cfg := by
    intro h cfg hn
    have : ¬ (h = host ∧ cfg = config) := by simpa using hn
    rw [hH]
    simp [this]
  have hfresh : ∀ h cfg, (h, cfg) ∈ [(host, config)] →
      ∃ i, s'.handle h cfg = some (some i) ∧ c.store.chans.next ≤ i := by
    intro h cfg hm
    have : h = host ∧ cfg = config := by simpa using hm
    exact ⟨c.store.chans.next, by rw [hH]; simp [this], le_refl _⟩
  unfold restoreConfig
  rw [hp]
  by_cases e : host = c.Name
  · refine ⟨{ c with store := s', tasks := c.tasks ++ [(config, some c.store.chans.next)] },
      by simp [e], ⟨hinv', rfl, by simp only; omega, hmono, hhosts, hframe, hfresh, ?_⟩⟩
    refine ⟨[(config, some c.store.chans.next)], rfl, by simp [e], by simp, ?_⟩
    intro cfg hm
    have : c.Name = host ∧ cfg = config := by simpa using hm
    obtain ⟨_, rfl⟩ := this
    exact ⟨c.store.chans.next, by simp, by rw [hH]; simp [e]⟩
  · refine ⟨{ c with store := s' }, by simp [e],
      ⟨hinv', rfl, by simp only; omega, hmono, hhosts, hframe, hfresh, ?_⟩⟩
    refine ⟨[], by simp, by simp [e], by simp, ?_⟩
    intro cfg hm
    have : c.Name = host ∧ cfg = config := by simpa using hm
    exact absurd this.1.symm e

theorem restoreConfigs_putsFrom (host : String) (cfgs : List String) (c : FSM)
    (hinv : c.store.Inv) :
    ∃ c', cfgs.foldlM (restoreConfig host) c = some c' ∧
      PutsFrom c c' (cfgs.map fun config => (host, config)) := by
  induction cfgs generalizing c with
  | nil => exact ⟨c, rfl, putsFrom_refl c hinv⟩
  | cons config cfgs ih =>
    obtain ⟨c1, e1, p1⟩ := restoreConfig_putsFrom host c hinv config
    obtain ⟨c2, e2, p2⟩ := ih c1 p1.inv
    refine ⟨c2, ?_, ?_⟩
    · simp only [List.foldlM_cons, e1, Option.bind_eq_bind, Option.bind_some]
      exact e2
    · have := putsFrom_trans c c1 c2 _ _ p1 p2
      simpa using this

theorem restoreLoop_putsFrom (newStore : GoMap (List String)) (c : FSM)
    (hinv : c.store.Inv) :
    ∃ c', restoreLoop c newStore = some c' ∧ PutsFrom c c' (dumpEntries newStore) := by
  unfold restoreLoop
  induction newStore generalizing c with
  | nil => exact ⟨c, rfl, putsFrom_refl c hinv⟩
  | cons kv newStore ih =>
    obtain ⟨c1, e1, p1⟩ := restoreConfigs_putsFrom kv.1 kv.2 c hinv
    obtain ⟨c2, e2, p2⟩ := ih c1 p1.inv
    refine ⟨c2, ?_, ?_⟩
    · simp only [List.foldlM_cons, e1, Option.bind_eq_bind, Option.bind_some]
      exact e2
    · exact putsFrom_trans c c1 c2 _ _ p1 p2

theorem mem_dumpEntries_iff (m : GoMap (List String)) (h cfg : String) :
    (h, cfg) ∈ dumpEntries m ↔ ∃ l, (h, l) ∈ m ∧ cfg ∈ l := by
  induction m with
  | nil => simp [dumpEntries]
  | cons kv m ih =>
    obtain ⟨k, l0⟩ := kv
    simp only [dumpEntries, List.mem_append, List.mem_map, Prod.mk.injEq, ih, List.mem_cons]
    constructor
    · rintro (⟨c, hc, rfl, rfl⟩ | ⟨l, hl, hcfg⟩)
      · exact ⟨l0, Or.inl ⟨rfl, rfl⟩, hc⟩
      · exact ⟨l, Or.inr hl, hcfg⟩
    · rintro ⟨l, (⟨rfl, rfl⟩ | hl), hcfg⟩
      · exact Or.inl ⟨cfg, hcfg, rfl, rfl⟩
      · exact Or.inr ⟨l, hl, hcfg⟩

/-- On a state machine whose store satisfies the invariant, `Restore` of data
that decodes to `newStore` does not panic and returns no error: `clean` leaves
the store `s0`, and the loops put the pairs of `newStore` into it. -/
theorem Restore_ok {Bytes : Type} (json : JSON Bytes) (c : FSM) (hinv : c.store.Inv)
    (rc : Bytes) (newStore : GoMap (List String)) (hd : json.Decode rc = some newStore) :
    ∃ s0 c', c.store.clean = some s0 ∧ s0.Inv ∧ s0.store = [] ∧
      s0.chans.next = c.store.chans.next ∧
      (∀ i, i ∈ s0.chans.closed ↔
        i ∈ c.store.chans.closed ∨ ∃ h cfg, c.store.handle h cfg = some (some i)) ∧
      FSM.Restore json c rc = some (.ok c') ∧
      PutsFrom { c with store := s0 } c' (dumpEntries newStore) := by
  obtain ⟨s0, h1, h2, h3, h4, _⟩ := clean_ok c.store hinv
  have hinv0 := inv_clean c.store s0 hinv h1
  obtain ⟨c', e1, p1⟩ := restoreLoop_putsFrom newStore { c with store := s0 } hinv0
  refine ⟨s0, c', h1, hinv0, h2, h3, h4, ?_, p1⟩
  simp only [FSM.Restore, hd, h1, Option.some_bind, e1, Option.map_some']

/-! ## `Replace` -/

theorem replaceConfig_eq_Put (k : String) (s : FSMStore) (cfg : String)
    (hnone : s.handle k cfg = none) :
    s.Put k cfg = some (replaceConfig k s cfg, some s.chans.next) := by
  rw [Put_eq, hnone]
  simp only [Option.getD_none, Chans.closeIfNotNil, Option.map_some', Option.some.injEq,
    Prod.mk.injEq, and_true]
  unfold replaceConfig
  cases hg : mapGet s.store k with
  | none =>
    simp [Chans.make, mapGetD, mapGet_mapSet, mapSet_mapSet, hg]
  | some m =>
    simp [Chans.make]

theorem replaceConfigs_inv (k : String) (cfgs : List String) (s : FSMStore) (hinv : s.Inv)
    (hnd : cfgs.Nodup) (hnone : ∀ c ∈ cfgs, s.handle k c = none) :
    (cfgs.foldl (replaceConfig k) s).Inv ∧
      ∀ h c, ¬ (h = k ∧ c ∈ cfgs) →
        (cfgs.foldl (replaceConfig k) s).handle h c = s.handle h c := by
  induction cfgs generalizing s with
  | nil => exact ⟨hinv, fun _ _ _ => rfl⟩
  | cons c0 cfgs ih =>
    have hnd' : c0 ∉ cfgs ∧ cfgs.Nodup := List.nodup_cons.1 hnd
    have hp := replaceConfig_eq_Put k s c0 (hnone c0 (List.mem_cons_self _ _))
    have hinv1 := inv_Put s _ hinv k c0 _ hp
    have hH := handle_Put s _ k c0 _ hp
    have hnone1 : ∀ c ∈ cfgs, (replaceConfig k s c0).handle k c = none := by
      intro c hc
      have hne : ¬ c = c0 := by
        rintro rfl
        exact hnd'.1 hc
      rw [hH]
      simp only [hne, and_false, if_false]
      exact hnone c (List.mem_cons_of_mem _ hc)
    obtain ⟨i1, i2⟩ := ih (replaceConfig k s c0) hinv1 hnd'.2 hnone1
    refine ⟨i1, ?_⟩
    intro h c hn
    simp only [List.foldl_cons]
    rw [i2 h c (fun x => hn ⟨x.1, List.mem_cons_of_mem _ x.2⟩), hH]
    have : ¬ (h = k ∧ c = c0) := fun x => hn ⟨x.1, by rw [x.2]; exact List.mem_cons_self _ _⟩
    simp [this]

theorem replaceLoop_inv (newStore : GoMap (GoMap Chan)) (s : FSMStore) (hinv : s.Inv)
    (hn : (mapKeys newStore).Nodup) (hc : ∀ kv ∈ newStore, (mapKeys kv.2).Nodup)
    (hnone : ∀ kv ∈ newStore, ∀ c, s.handle kv.1 c = none) :
    (newStore.foldl (fun s1 kv => (mapKeys kv.2).foldl (replaceConfig kv.1) s1) s).Inv := by
  induction newStore generalizing s with
  | nil => exact hinv
  | cons kv newStore ih =>
    have h1 : kv.1 ∉ mapKeys newStore ∧ (mapKeys newStore).Nodup := by
      simpa [mapKeys] using hn
    obtain ⟨i1, i2⟩ := replaceConfigs_inv kv.1 (mapKeys kv.2) s hinv
      (hc kv (List.mem_cons_self _ _))
      (fun c _ => hnone kv (List.mem_cons_self _ _) c)
    simp only [List.foldl_cons]
    apply ih _ i1 h1.2 (fun kv' hkv' => hc kv' (List.mem_cons_of_mem _ hkv'))
    intro kv' hkv' c
    have hne : ¬ kv'.1 = kv.1 := by
      intro e
      apply h1.1
      rw [← e]
      exact List.mem_map_of_mem Prod.fst hkv'
    rw [i2 kv'.1 c (fun x => hne x.1)]
    exact hnone kv' (List.mem_cons_of_mem _ hkv') c

/-- On a store that satisfies the invariant `Replace` with a Go map does not
panic and leaves a store that satisfies the invariant. -/
theorem Replace_ok (s : FSMStore) (hinv : s.Inv) (newStore : GoMap (GoMap Chan))
    (hn : (mapKeys newStore).Nodup) (hc : ∀ kv ∈ newStore, (mapKeys kv.2).Nodup) :
    ∃ s', s.Replace newStore = some s' ∧ s'.Inv := by
  obtain ⟨s0, h1, h2, _⟩ := clean_ok s hinv
  have hinv0 := inv_clean s s0 hinv h1
  refine ⟨newStore.foldl (fun s1 kv => (mapKeys kv.2).foldl (replaceConfig kv.1) s1) s0,
    by simp only [FSMStore.Replace, h1, Option.map_some'], ?_⟩
  apply replaceLoop_inv newStore s0 hinv0 hn hc
  intro kv _ c
  simp [FSMStore.handle, h2, mapGet]

/-! ## Every reachable store satisfies the invariant -/

theorem Op_run_ok {Bytes : Type} (json : JSON Bytes) (c : FSM) (hinv : c.store.Inv)
    (op : Op Bytes) (hwf : op.WellFormed) :
    ∃ c', op.run json c = some c' ∧ c'.store.Inv := by
  cases op with
  | Put host config =>
    obtain ⟨s', hp, _⟩ := Put_ok c.store hinv host config
    exact ⟨{ c with store := s' }, by simp only [Op.run, hp, Option.map_some'],
      inv_Put c.store s' hinv _ _ _ hp⟩
  | Remove host config =>
    obtain ⟨s', hr, _⟩ := Remove_ok c.store hinv host config
    exact ⟨{ c with store := s' }, by simp only [Op.run, hr, Option.map_some'],
      inv_Remove c.store s' hinv _ _ hr⟩
  | clean =>
    obtain ⟨s', hc, _⟩ := clean_ok c.store hinv
    exact ⟨{ c with store := s' }, by simp only [Op.run, hc, Option.map_some'],
      inv_clean c.store s' hinv hc⟩
  | Replace newStore =>
    obtain ⟨s', hr, hinv'⟩ := Replace_ok c.store hinv newStore hwf.1 hwf.2
    exact ⟨{ c with store := s' }, by simp only [Op.run, hr, Option.map_some'], hinv'⟩
  | Apply data =>
    obtain ⟨c', h1, h2, _⟩ := Apply_ok json c hinv data
    exact ⟨c', h1, h2⟩
  | Restore rc =>
    cases hd : json.Decode rc with
    | none => exact ⟨c, by simp [Op.run, FSM.Restore, hd], hinv⟩
    | some newStore =>
      obtain ⟨s0, c', _, _, _, _, _, h1, p1⟩ := Restore_ok json c hinv rc newStore hd
      exact ⟨c', by simp only [Op.run, h1, Option.map_some'], p1.inv⟩

theorem runOps_ok {Bytes : Type} (json : JSON Bytes) (ops : List (Op Bytes)) (c : FSM)
    (hinv : c.store.Inv) (hwf : ∀ op ∈ ops, op.WellFormed) :
    ∃ c', FSM.runOps json c ops = some c' ∧ c'.store.Inv := by
  induction ops generalizing c with
  | nil => exact ⟨c, rfl, hinv⟩
  | cons op ops ih =>
    obtain ⟨c1, h1, hinv1⟩ := Op_run_ok json c hinv op (hwf op (List.mem_cons_self _ _))
    obtain ⟨c2, h2, hinv2⟩ := ih c1 hinv1 (fun o ho => hwf o (List.mem_cons_of_mem _ ho))
    refine ⟨c2, ?_, hinv2⟩
    unfold FSM.runOps at h2 ⊢
    simp only [List.foldlM_cons, h1, Option.bind_eq_bind, Option.some_bind]
    exact h2

/-- C2: handle exclusivity.  Any sequence of calls of `Put`, `Remove`, `clean`,
`Replace`, `Apply` and `Restore` on a new store runs without a panic (no channel
is closed twice), and in the store it leaves every entry holds a channel that was
made, is not closed and is held by no other entry, while every channel that was
made and is no longer held has been closed exactly once. -/
theorem C2_handle_exclusivity {Bytes : Type} (json : JSON Bytes) (name : String)
    (ops : List (Op Bytes)) (hwf : ∀ op ∈ ops, op.WellFormed) :
    ∃ c, FSM.runOps json (FSM.init name) ops = some c ∧
      (∀ host config ch, c.store.handle host config = some ch →
        ∃ i, ch = some i ∧ i < c.store.chans.next ∧ i ∉ c.store.chans.closed ∧
          ∀ h' c', c.store.handle h' c' = some (some i) → h' = host ∧ c' = config) ∧
      (∀ i, i < c.store.chans.next → (∀ h cfg, c.store.handle h cfg ≠ some (some i)) →
        c.store.chans.closed.count i = 1) ∧
      (∀ i, c.store.chans.closed.count i ≤ 1) := by
  obtain ⟨c, h1, hinv⟩ := runOps_ok json ops (FSM.init name) inv_NewFSMStore hwf
  refine ⟨c, h1, ?_, ?_, ?_⟩
  · intro host config ch hch
    obtain ⟨i, rfl, hlt, hnc⟩ := hinv.live host config ch hch
    refine ⟨i, rfl, hlt, hnc, ?_⟩
    intro h' c' h2
    exact hinv.exclusive h' c' host config i h2 hch
  · intro i hi hfree
    exact List.count_eq_one_of_mem hinv.closed_nodup (hinv.released i hi hfree)
  · intro i
    exact List.nodup_iff_count_le_one.1 hinv.closed_nodup i

theorem sampleOps_wellFormed : ∀ op ∈ sampleOps, op.WellFormed := by
  simp [sampleOps, Op.WellFormed, mapKeys]

theorem C2_handle_exclusivity_witness :
    (∀ op ∈ sampleOps, op.WellFormed) ∧
    ∃ c, FSM.runOps docJSON (FSM.init "b") sampleOps = some c ∧
      (∀ host config ch, c.store.handle host config = some ch →
        ∃ i, ch = some i ∧ i < c.store.chans.next ∧ i ∉ c.store.chans.closed ∧
          ∀ h' c', c.store.handle h' c' = some (some i) → h' = host ∧ c' = config) ∧
      (∀ i, i < c.store.chans.next → (∀ h cfg, c.store.handle h cfg ≠ some (some i)) →
        c.store.chans.closed.count i = 1) ∧
      (∀ i, c.store.chans.closed.count i ≤ 1) :=
  ⟨sampleOps_wellFormed, C2_handle_exclusivity docJSON "b" sampleOps sampleOps_wellFormed⟩

theorem mapGet_DistributionStatistic (s : FSMStore) (host : String) :
    mapGet s.DistributionStatistic host =
      (mapGet s.store host).map fun m => Itoa m.length := by
  unfold FSMStore.DistributionStatistic
  induction s.store with
  | nil => simp [mapGet]
  | cons kv m ih =>
    by_cases e : kv.1 = host <;> simp [mapGet, e, ih]

theorem mapGet_Dump (s : FSMStore) (host : String) :
    mapGet s.Dump host = (mapGet s.store host).map keys := by
  unfold FSMStore.Dump
  induction s.store with
  | nil => simp [mapGet]
  | cons kv m ih =>
    by_cases e : kv.1 = host <;> simp [mapGet, e, ih]

theorem mapKeys_Dump (s : FSMStore) : mapKeys s.Dump = mapKeys s.store := by
  simp [FSMStore.Dump, mapKeys]

theorem List_eq (s : FSMStore) (host : String) :
    s.List host = (mapGet s.store host).map keys := by
  unfold FSMStore.List
  cases mapGet s.store host <;> rfl

theorem length_keys (m : GoMap Chan) : (keys m).length = m.length := by
  simp [keys, mapKeys]

/-- C5: any sequence of calls of `Put`, `Remove`, `clean`, `Replace`, `Apply` and
`Restore` on a new store runs without a panic, and in the store it leaves the list
that `List(host)` returns and each list of `Dump` have no config twice, and
`DistributionStatistic` reports for that host the length of the list. -/
theorem C5_no_duplicates {Bytes : Type} (json : JSON Bytes) (name : String)
    (ops : List (Op Bytes)) (hwf : ∀ op ∈ ops, op.WellFormed) :
    ∃ c, FSM.runOps json (FSM.init name) ops = some c ∧
      (∀ host l, c.store.List host = some l →
        l.Nodup ∧ mapGet c.store.DistributionStatistic host = some (Itoa l.length)) ∧
      (∀ host l, (host, l) ∈ c.store.Dump →
        l.Nodup ∧ mapGet c.store.DistributionStatistic host = some (Itoa l.length)) := by
  obtain ⟨c, h1, hinv⟩ := runOps_ok json ops (FSM.init name) inv_NewFSMStore hwf
  have key : ∀ host l, (mapGet c.store.store host).map keys = some l →
      l.Nodup ∧ mapGet c.store.DistributionStatistic host = some (Itoa l.length) := by
    intro host l hl
    rw [mapGet_DistributionStatistic]
    cases hg : mapGet c.store.store host with
    | none => simp [hg] at hl
    | some m =>
      simp only [hg, Option.map_some', Option.some.injEq] at hl
      subst hl
      exact ⟨hinv.configs_nodup host m hg, by simp [length_keys]⟩
  refine ⟨c, h1, ?_, ?_⟩
  · intro host l hl
    rw [List_eq] at hl
    exact key host l hl
  · intro host l hl
    apply key host l
    rw [← mapGet_Dump]
    apply mapGet_of_mem _ _ _ _ hl
    rw [mapKeys_Dump]
    exact hinv.hosts_nodup

theorem sampleLog_wellFormed : ∀ op ∈ sampleLog, op.WellFormed := by
  simp [sampleLog, Op.WellFormed]

theorem C5_no_duplicates_witness :
    (∀ op ∈ sampleLog, op.WellFormed) ∧
    ∃ c, FSM.runOps docJSON (FSM.init "b") sampleLog = some c ∧
      (∀ host l, c.store.List host = some l →
        l.Nodup ∧ mapGet c.store.DistributionStatistic host = some (Itoa l.length)) ∧
      (∀ host l, (host, l) ∈ c.store.Dump →
        l.Nodup ∧ mapGet c.store.DistributionStatistic host = some (Itoa l.length)) :=
  ⟨sampleLog_wellFormed, C5_no_duplicates docJSON "b" sampleLog sampleLog_wellFormed⟩

/-! ## Snapshot and restore -/

theorem mem_dumpConfigs_Dump (s : FSMStore) (host cfg : String) :
    cfg ∈ dumpConfigs s.Dump host ↔ ∃ ch, s.handle host cfg = some ch := by
  unfold dumpConfigs mapGetD FSMStore.handle
  rw [mapGet_Dump]
  cases mapGet s.store host with
  | none => simp
  | some m => simp [keys, mem_mapKeys_iff]

theorem mem_dumpEntries_of_nodup (m : GoMap (List String)) (hn : (mapKeys m).Nodup)
    (h cfg : String) : (h, cfg) ∈ dumpEntries m ↔ cfg ∈ dumpConfigs m h := by
  rw [mem_dumpEntries_iff]
  unfold dumpConfigs mapGetD
  constructor
  · rintro ⟨l, hl, hcfg⟩
    rw [mapGet_of_mem m h l hn hl]
    exact hcfg
  · intro hcfg
    cases hg : mapGet m h with
    | none => simp [hg] at hcfg
    | some l =>
      rw [hg] at hcfg
      exact ⟨l, mem_of_mapGet m h l hg, hcfg⟩

theorem localConfigs_eq (m : GoMap (List String)) (hn : (mapKeys m).Nodup) (name : String) :
    ((dumpEntries m).filter (fun p => decide (p.1 = name))).map Prod.snd =
      dumpConfigs m name := by
  induction m with
  | nil => simp [dumpEntries, dumpConfigs, mapGetD, mapGet]
  | cons kv m ih =>
    obtain ⟨k, l⟩ := kv
    have h1 : k ∉ mapKeys m ∧ (mapKeys m).Nodup := by simpa [mapKeys] using hn
    have ih' := ih h1.2
    simp only [dumpEntries, List.filter_append, List.map_append, ih']
    by_cases e : k = name
    · subst e
      have hnone : mapGet m k = none := (not_mem_mapKeys_iff m k).1 h1.1
      have hall : (l.map fun config => (k, config)).filter (fun p => decide (p.1 = k)) =
          l.map fun config => (k, config) := by
        rw [List.filter_eq_self]
        intro p hp
        obtain ⟨c, _, rfl⟩ := List.mem_map.1 hp
        simp
      rw [hall]
      simp [dumpConfigs, mapGetD, mapGet, hnone, Function.comp]
    · have hnil : (l.map fun config => (k, config)).filter (fun p => decide (p.1 = name)) =
          [] := by
        rw [List.filter_eq_nil_iff]
        intro p hp
        obtain ⟨c, _, rfl⟩ := List.mem_map.1 hp
        simp [e]
      rw [hnil]
      simp [dumpConfigs, mapGetD, mapGet, e]

/-- C6: on a state machine whose store satisfies the invariant, `Restore` of data
that decodes to the map `newStore` returns no error and does not panic; every
channel that the store held before is closed; the entries of the store are then
exactly the pairs `(host, config)` that `newStore` lists; and each of them holds a
channel that was made during the restore and is not closed. -/
theorem C6_Restore {Bytes : Type} (json : JSON Bytes) (c : FSM) (hinv : c.store.Inv)
    (rc : Bytes) (newStore : GoMap (List String)) (hd : json.Decode rc = some newStore) :
    ∃ c', FSM.Restore json c rc = some (.ok c') ∧
      (∀ h cfg ch, c.store.handle h cfg = some ch →
        ∃ i, ch = some i ∧ i ∈ c'.store.chans.closed) ∧
      (∀ h cfg, (∃ ch, c'.store.handle h cfg = some ch) ↔ ∃ l, (h, l) ∈ newStore ∧ cfg ∈ l) ∧
      (∀ h cfg ch, c'.store.handle h cfg = some ch →
        ∃ i, ch = some i ∧ c.store.chans.next ≤ i ∧ i < c'.store.chans.next ∧
          i ∉ c'.store.chans.closed) := by
  obtain ⟨s0, c', _, _, hempty, hnext, hclosed, hr, hp⟩ :=
    Restore_ok json c hinv rc newStore hd
  have h0 : ∀ h cfg, s0.handle h cfg = none := by
    intro h cfg
    simp [FSMStore.handle, hempty, mapGet]
  have hiff : ∀ h cfg, (∃ ch, c'.store.handle h cfg = some ch) ↔
      (h, cfg) ∈ dumpEntries newStore := by
    intro h cfg
    constructor
    · rintro ⟨ch, hch⟩
      by_contra hn
      rw [hp.frame h cfg hn] at hch
      simp only at hch
      rw [h0] at hch
      cases hch
    · intro hm
      obtain ⟨i, hi, _⟩ := hp.fresh h cfg hm
      exact ⟨_, hi⟩
  refine ⟨c', hr, ?_, ?_, ?_⟩
  · intro h cfg ch hch
    obtain ⟨i, rfl, _, _⟩ := hinv.live h cfg ch hch
    refine ⟨i, rfl, hp.closed_mono i ?_⟩
    simp only
    rw [hclosed]
    exact Or.inr ⟨h, cfg, hch⟩
  · intro h cfg
    rw [hiff, mem_dumpEntries_iff]
  · intro h cfg ch hch
    have hm := (hiff h cfg).1 ⟨ch, hch⟩
    obtain ⟨i, hi, hle⟩ := hp.fresh h cfg hm
    rw [hi] at hch
    simp only [Option.some.injEq] at hch
    subst hch
    obtain ⟨j, hj, hlt, hnc⟩ := hp.inv.live h cfg _ hi
    simp only [Option.some.injEq] at hj
    subst hj
    simp only at hle
    exact ⟨i, rfl, by omega, hlt, hnc⟩

theorem C6_Restore_witness :
    storeAC.Inv ∧
    docJSON.Decode (Doc.dump [("a", ["c1", "c2"]), ("b", ["c3"])]) =
      some [("a", ["c1", "c2"]), ("b", ["c3"])] ∧
    ∃ c', FSM.Restore docJSON { Name := "b", store := storeAC, tasks := [] }
        (Doc.dump [("a", ["c1", "c2"]), ("b", ["c3"])]) = some (.ok c') ∧
      (∀ h cfg ch, storeAC.handle h cfg = some ch →
        ∃ i, ch = some i ∧ i ∈ c'.store.chans.closed) ∧
      (∀ h cfg, (∃ ch, c'.store.handle h cfg = some ch) ↔
        ∃ l, (h, l) ∈ [("a", ["c1", "c2"]), ("b", ["c3"])] ∧ cfg ∈ l) ∧
      (∀ h cfg ch, c'.store.handle h cfg = some ch →
        ∃ i, ch = some i ∧ storeAC.chans.next ≤ i ∧ i < c'.store.chans.next ∧
          i ∉ c'.store.chans.closed) :=
  ⟨inv_storeAC, rfl,
    C6_Restore docJSON { Name := "b", store := storeAC, tasks := [] } inv_storeAC
      (Doc.dump [("a", ["c1", "c2"]), ("b", ["c3"])]) [("a", ["c1", "c2"]), ("b", ["c3"])] rfl⟩

theorem applyCommand_tasks (c : FSM) (hinv : c.store.Inv) (cmd : FSMCommand) :
    ∃ c', c.applyCommand cmd = some c' ∧
      ((cmd.type = cmdAssignConfig ∧ cmd.Host = c.Name ∧
          c'.tasks = c.tasks ++ [(cmd.Config, some c.store.chans.next)] ∧
          c'.store.handle cmd.Host cmd.Config = some (some c.store.chans.next)) ∨
        (¬ (cmd.type = cmdAssignConfig ∧ cmd.Host = c.Name) ∧ c'.tasks = c.tasks)) := by
  unfold FSM.applyCommand
  by_cases h1 : cmd.type = cmdAssignConfig
  · obtain ⟨s', hp, _⟩ := Put_ok c.store hinv cmd.Host cmd.Config
    have hH := handle_Put c.store s' cmd.Host cmd.Config _ hp
    rw [if_pos h1, hp]
    by_cases h2 : cmd.Host = c.Name
    · refine ⟨{ c with store := s', tasks := c.tasks ++ [(cmd.Config, some c.store.chans.next)] },
        by simp only [Option.map_some', h2, if_true], Or.inl ⟨h1, h2, rfl, ?_⟩⟩
      simp only
      rw [hH]
      simp
    · exact ⟨{ c with store := s' }, by simp only [Option.map_some', h2, if_false],
        Or.inr ⟨fun x => h2 x.2, rfl⟩⟩
  · by_cases h2 : cmd.type = cmdRemoveConfig
    · obtain ⟨s', hr, _⟩ := Remove_ok c.store hinv cmd.Host cmd.Config
      rw [if_neg h1, if_pos h2, hr]
      exact ⟨{ c with store := s' }, rfl, Or.inr ⟨fun x => h1 x.1, rfl⟩⟩
    · rw [if_neg h1, if_neg h2]
      exact ⟨c, rfl, Or.inr ⟨fun x => h1 x.1, rfl⟩⟩

/-- C7: the task-spawn rule, on a state machine whose store satisfies the
invariant.  `Apply` starts a task runner exactly when the data decodes to an
`AssignConfig` whose host is the local node, and that runner is bound to the
config of the command and to the channel that this call of `Put` made and stored;
in every other case it starts none.  `Restore` of a decoded map starts one runner
for each config listed for the local node, in order, and none for other hosts,
and the channel of each restored local entry is bound to one of these runners.
For the snapshot `{a:[c1,c2], b:[c3]}` on node `b` it starts exactly one
runner, for `c3`. -/
theorem C7_task_spawn {Bytes : Type} (json : JSON Bytes) (c : FSM) (hinv : c.store.Inv) :
    (∀ data, ∃ c', FSM.Apply json c data = some c' ∧
      ((∃ cmd i, json.UnmarshalCommand data = some cmd ∧ cmd.type = cmdAssignConfig ∧
          cmd.Host = c.Name ∧ c'.tasks = c.tasks ++ [(cmd.Config, some i)] ∧
          c.store.chans.next ≤ i ∧
          c'.store.handle cmd.Host cmd.Config = some (some i)) ∨
        ((¬ ∃ cmd, json.UnmarshalCommand data = some cmd ∧ cmd.type = cmdAssignConfig ∧
          cmd.Host = c.Name) ∧ c'.tasks = c.tasks))) ∧
    (∀ rc newStore, json.Decode rc = some newStore → (mapKeys newStore).Nodup →
      ∃ c' new, FSM.Restore json c rc = some (.ok c') ∧ c'.tasks = c.tasks ++ new ∧
        new.map Prod.fst = dumpConfigs newStore c.Name ∧
        (∀ t ∈ new, ∃ i, t.2 = some i ∧ c.store.chans.next ≤ i) ∧
        (∀ cfg ∈ dumpConfigs newStore c.Name,
          ∃ i, (cfg, some i) ∈ new ∧ c'.store.handle c.Name cfg = some (some i))) ∧
    (∀ rc, c.Name = "b" → json.Decode rc = some [("a", ["c1", "c2"]), ("b", ["c3"])] →
      ∃ c' i, FSM.Restore json c rc = some (.ok c') ∧
        c'.tasks = c.tasks ++ [("c3", some i)] ∧
        c'.store.handle "b" "c3" = some (some i)) := by
  have hrestore : ∀ rc newStore, json.Decode rc = some newStore → (mapKeys newStore).Nodup →
      ∃ c' new, FSM.Restore json c rc = some (.ok c') ∧ c'.tasks = c.tasks ++ new ∧
        new.map Prod.fst = dumpConfigs newStore c.Name ∧
        (∀ t ∈ new, ∃ i, t.2 = some i ∧ c.store.chans.next ≤ i) ∧
        (∀ cfg ∈ dumpConfigs newStore c.Name,
          ∃ i, (cfg, some i) ∈ new ∧ c'.store.handle c.Name cfg = some (some i)) := by
    intro rc newStore hd hn
    obtain ⟨s0, c', _, _, _, hnext, _, hr, hp⟩ := Restore_ok json c hinv rc newStore hd
    obtain ⟨new, e1, e2, e3, e4⟩ := hp.tasks
    simp only at e1 e2 e3 e4
    refine ⟨c', new, hr, e1, ?_, ?_, ?_⟩
    · rw [e2, localConfigs_eq newStore hn]
    · intro t ht
      obtain ⟨i, hi, hle⟩ := e3 t ht
      exact ⟨i, hi, by omega⟩
    · intro cfg hcfg
      exact e4 cfg ((mem_dumpEntries_of_nodup newStore hn c.Name cfg).2 hcfg)
  refine ⟨?_, hrestore, ?_⟩
  · intro data
    unfold FSM.Apply
    cases hu : json.UnmarshalCommand data with
    | none => exact ⟨c, rfl, Or.inr ⟨by simp, rfl⟩⟩
    | some cmd =>
      obtain ⟨c', h1, h2⟩ := applyCommand_tasks c hinv cmd
      refine ⟨c', h1, ?_⟩
      rcases h2 with ⟨a1, a2, a3, a4⟩ | ⟨b1, b2⟩
      · exact Or.inl ⟨cmd, c.store.chans.next, rfl, a1, a2, a3, le_refl _, a4⟩
      · refine Or.inr ⟨?_, b2⟩
        rintro ⟨cmd', e, x1, x2⟩
        simp only [Option.some.injEq] at e
        subst e
        exact b1 ⟨x1, x2⟩
  · intro rc hname hd
    obtain ⟨c', new, hr, e1, e2, _, e4⟩ := hrestore rc _ hd (by simp [mapKeys])
    have hcfgs : dumpConfigs [("a", ["c1", "c2"]), ("b", ["c3"])] c.Name = ["c3"] := by
      rw [hname]; rfl
    rw [hcfgs] at e2 e4
    obtain ⟨i, hi, hh⟩ := e4 "c3" (by simp)
    rw [hname] at hh
    refine ⟨c', i, hr, ?_, hh⟩
    have hone : ∃ t, new = [t] := by
      cases new with
      | nil => simp at e2
      | cons t rest =>
        cases rest with
        | nil => exact ⟨t, rfl⟩
        | cons _ _ => simp at e2
    obtain ⟨t, rfl⟩ := hone
    simp only [List.mem_singleton] at hi
    rw [e1, ← hi]

theorem C7_task_spawn_witness :
    storeAC.Inv ∧
    ((∀ data, ∃ c', FSM.Apply docJSON { Name := "b", store := storeAC, tasks := [] } data =
        some c' ∧
      ((∃ cmd i, docJSON.UnmarshalCommand data = some cmd ∧ cmd.type = cmdAssignConfig ∧
          cmd.Host = "b" ∧ c'.tasks = [] ++ [(cmd.Config, some i)] ∧
          storeAC.chans.next ≤ i ∧
          c'.store.handle cmd.Host cmd.Config = some (some i)) ∨
        ((¬ ∃ cmd, docJSON.UnmarshalCommand data = some cmd ∧ cmd.type = cmdAssignConfig ∧
          cmd.Host = "b") ∧ c'.tasks = []))) ∧
    (∀ rc newStore, docJSON.Decode rc = some newStore → (mapKeys newStore).Nodup →
      ∃ c' new, FSM.Restore docJSON { Name := "b", store := storeAC, tasks := [] } rc =
          some (.ok c') ∧ c'.tasks = [] ++ new ∧
        new.map Prod.fst = dumpConfigs newStore "b" ∧
        (∀ t ∈ new, ∃ i, t.2 = some i ∧ storeAC.chans.next ≤ i) ∧
        (∀ cfg ∈ dumpConfigs newStore "b",
          ∃ i, (cfg, some i) ∈ new ∧ c'.store.handle "b" cfg = some (some i))) ∧
    (∀ rc, "b" = "b" → docJSON.Decode rc = some [("a", ["c1", "c2"]), ("b", ["c3"])] →
      ∃ c' i, FSM.Restore docJSON { Name := "b", store := storeAC, tasks := [] } rc =
          some (.ok c') ∧
        c'.tasks = [] ++ [("c3", some i)] ∧
        c'.store.handle "b" "c3" = some (some i))) :=
  ⟨inv_storeAC, C7_task_spawn docJSON { Name := "b", store := storeAC, tasks := [] } inv_storeAC⟩

theorem docJSON_roundTrip : docJSON.RoundTrip :=
  fun d hd => ⟨Doc.dump d, d, rfl, rfl, hd, fun _ => rfl⟩

/-- C1, as stated, fails: after `AssignConfig(a, c)` and `RemoveConfig(a, c)` the
dump is `{a: []}`; its snapshot restored into a new state machine leaves an
empty store, so host `a` is in the dump before and not in the dump after. -/
theorem C1_counterexample :
    ∃ S b T', FSM.applyAll docJSON (FSM.init "b")
        [Doc.command ⟨"AssignConfig", "a", "c"⟩, Doc.command ⟨"RemoveConfig", "a", "c"⟩] = some S ∧
      FSM.Snapshot docJSON S = some b ∧
      FSM.Restore docJSON (FSM.init "b") b = some (.ok T') ∧
      S.store.Dump = [("a", [])] ∧ T'.store.Dump = [] ∧
      ¬ (∀ host, host ∈ dumpHosts T'.store.Dump ↔ host ∈ dumpHosts S.store.Dump) :=
  ⟨{ Name := "b", store := { store := [("a", [])], chans := { next := 1, closed := [0] } },
     tasks := [] },
   Doc.dump [("a", [])],
   { Name := "b", store := { store := [], chans := { next := 0, closed := [] } }, tasks := [] },
   by decide, by decide, rfl, by decide, by decide,
   fun h => by
    have := (h "a").2 (by decide)
    simp [dumpHosts, mapKeys, FSMStore.Dump] at this⟩

/-- C1, amended: for a codec with the round-trip property, the snapshot of a
state `S` reached by any log, restored into a state machine reached by any log,
is restored without error or panic; the dump of the restored store has exactly
the hosts of `Dump(S)` that have at least one config, and for every host the same
configs as `Dump(S)`. -/
theorem C1_snapshot_round_trip {Bytes : Type} (json : JSON Bytes) (hrt : json.RoundTrip)
    (name : String) (log : List Bytes) (name' : String) (log' : List Bytes) :
    ∃ S b T T', FSM.applyAll json (FSM.init name) log = some S ∧
      FSM.Snapshot json S = some b ∧
      FSM.applyAll json (FSM.init name') log' = some T ∧
      FSM.Restore json T b = some (.ok T') ∧
      (∀ host, host ∈ dumpHosts T'.store.Dump ↔
        host ∈ dumpHosts S.store.Dump ∧ dumpConfigs S.store.Dump host ≠ []) ∧
      (∀ host cfg, cfg ∈ dumpConfigs T'.store.Dump host ↔
        cfg ∈ dumpConfigs S.store.Dump host) := by
  obtain ⟨S, hS, hinvS, _⟩ := applyAll_ok json log (FSM.init name) inv_NewFSMStore
  obtain ⟨T, hT, hinvT, _⟩ := applyAll_ok json log' (FSM.init name') inv_NewFSMStore
  have hnS : (mapKeys S.store.Dump).Nodup := by
    rw [mapKeys_Dump]; exact hinvS.hosts_nodup
  obtain ⟨b, d', hm, hd, hn', hget⟩ := hrt S.store.Dump hnS
  obtain ⟨s0, T', _, _, hempty, _, _, hr, hp⟩ := Restore_ok json T hinvT b d' hd
  have hcfgs : ∀ host, dumpConfigs d' host = dumpConfigs S.store.Dump host := by
    intro host
    simp only [dumpConfigs, mapGetD, hget]
  have h0 : ∀ h cfg, s0.handle h cfg = none := by
    intro h cfg
    simp [FSMStore.handle, hempty, mapGet]
  have hentry : ∀ host cfg, cfg ∈ dumpConfigs T'.store.Dump host ↔
      cfg ∈ dumpConfigs S.store.Dump host := by
    intro host cfg
    rw [mem_dumpConfigs_Dump, ← hcfgs, ← mem_dumpEntries_of_nodup d' hn']
    constructor
    · rintro ⟨ch, hch⟩
      by_contra hne
      rw [hp.frame host cfg hne] at hch
      simp only at hch
      rw [h0] at hch
      cases hch
    · intro hmem
      obtain ⟨i, hi, _⟩ := hp.fresh host cfg hmem
      exact ⟨_, hi⟩
  refine ⟨S, b, T, T', hS, hm, hT, hr, ?_, hentry⟩
  intro host
  have hh := hp.hosts host
  simp only [hempty, mapKeys, List.map_nil, List.not_mem_nil, false_or] at hh
  simp only [dumpHosts, mapKeys_Dump]
  rw [show (host ∈ mapKeys T'.store.store) = (host ∈ List.map Prod.fst T'.store.store) from rfl, hh]
  constructor
  · rintro ⟨cfg, hcfg⟩
    have hc : cfg ∈ dumpConfigs S.store.Dump host := by
      rw [← hcfgs, ← mem_dumpEntries_of_nodup d' hn']; exact hcfg
    refine ⟨?_, List.ne_nil_of_mem hc⟩
    obtain ⟨ch, hch⟩ := (mem_dumpConfigs_Dump S.store host cfg).1 hc
    unfold FSMStore.handle at hch
    cases hg : mapGet S.store.store host with
    | none => simp [hg] at hch
    | some m => exact (mem_mapKeys_iff S.store.store host).2 ⟨m, hg⟩
  · rintro ⟨_, hne⟩
    obtain ⟨cfg, hcfg⟩ := List.exists_mem_of_ne_nil _ hne
    exact ⟨cfg, by rw [mem_dumpEntries_of_nodup d' hn', hcfgs]; exact hcfg⟩

theorem C1_snapshot_round_trip_witness :
    docJSON.RoundTrip ∧
    ∃ S b T T', FSM.applyAll docJSON (FSM.init "a")
        [Doc.command ⟨"AssignConfig", "a", "c1"⟩, Doc.command ⟨"AssignConfig", "b", "c3"⟩,
         Doc.command ⟨"AssignConfig", "a", "c2"⟩] = some S ∧
      FSM.Snapshot docJSON S = some b ∧
      FSM.applyAll docJSON (FSM.init "b") [Doc.command ⟨"AssignConfig", "b", "c9"⟩] = some T ∧
      FSM.Restore docJSON T b = some (.ok T') ∧
      (∀ host, host ∈ dumpHosts T'.store.Dump ↔
        host ∈ dumpHosts S.store.Dump ∧ dumpConfigs S.store.Dump host ≠ []) ∧
      (∀ host cfg, cfg ∈ dumpConfigs T'.store.Dump host ↔
        cfg ∈ dumpConfigs S.store.Dump host) :=
  ⟨docJSON_roundTrip, C1_snapshot_round_trip docJSON docJSON_roundTrip "a" _ "b" _⟩

/-- C10, the code at the failing input: with a TTL of 10 and a fetcher that
succeeds after 20, `get` on the missing key returns the value, but the entry it
has made is past its `expires` when the fetcher returns, and `get` starts the
refresh goroutine after its own call of the fetcher: the fetcher is called
twice, where the claim says exactly once. -/
theorem C10_slow_fetch_called_twice :
    mapGet cache10.store "k" = none ∧ (slowFetch 0).err = none ∧
    ∃ r, cache10.get 0 "k" slowFetch = some r ∧ r.value = .bytes [118] ∧ r.err = none ∧
      r.called = 1 ∧ r.refreshing = true ∧ r.fetcherCalls = 2 :=
  ⟨rfl, rfl, _, rfl, rfl, rfl, rfl, rfl, rfl⟩

/-! ## The TTL cache: misses, errors and stale entries -/

theorem mapDelete_mapSet_of_none {V : Type} (m : GoMap V) (k : String) (v : V)
    (h : mapGet m k = none) : mapDelete (mapSet m k v) k = m := by
  induction m with
  | nil => simp [mapSet, mapDelete]
  | cons p m ih =>
    obtain ⟨a, b⟩ := p
    by_cases e : a = k
    · simp [mapGet, e] at h
    · simp only [mapGet, e, if_false] at h
      have := ih h
      unfold mapDelete at this ⊢
      simp [mapSet, e, this]

theorem get_miss (c : TTLCache) (now : Int) (key : String) (f : fetcher)
    (hmiss : mapGet c.store key = none) :
    ∃ r, c.get now key f = some r ∧ r.value = (f now).value ∧ r.err = (f now).err ∧
      r.called = 1 ∧ r.now = now + (f now).took ∧
      r.refreshing = decide (now + (f now).took - (now + c.ttl) > 0) ∧
      ((f now).err ≠ none → r.cache = c) ∧
      ((f now).err = none → r.cache.ttl = c.ttl ∧
        mapGet r.cache.store key =
          some { expires := now + c.ttl, value := (f now).value, err := none, ready := true } ∧
        ∀ k, k ≠ key → mapGet r.cache.store k = mapGet c.store k) := by
  cases he : (f now).err with
  | none =>
    refine ⟨{ cache := { ttl := c.ttl, interval := c.interval, cleanupAfter := c.cleanupAfter,
                         store := mapSet (mapSet (mapSet c.store key
                             ⟨now + c.ttl, .nil, none, false⟩)
                           key ⟨now + c.ttl, (f now).value, none, false⟩)
                           key ⟨now + c.ttl, (f now).value, none, true⟩ }
              now := now + (f now).took, value := (f now).value, err := none, called := 1
              refreshing := decide (now + (f now).took - (now + c.ttl) > 0) },
      ?_, rfl, rfl, rfl, rfl, rfl, ?_, ?_⟩
    · simp [TTLCache.get, hmiss, he, getFinish]
    · intro h; exact absurd rfl h
    · intro _
      refine ⟨rfl, by simp [mapGet_mapSet], ?_⟩
      intro k hk
      have : ¬ key = k := fun x => hk x.symm
      simp [mapGet_mapSet, this]
  | some e =>
    refine ⟨{ cache := c, now := now + (f now).took, value := (f now).value, err := some e,
              called := 1, refreshing := decide (now + (f now).took - (now + c.ttl) > 0) },
      ?_, rfl, rfl, rfl, rfl, rfl, fun _ => rfl, ?_⟩
    · simp [TTLCache.get, hmiss, he, getFinish, mapDelete_mapSet_of_none]
    · intro h; cases h

theorem refresh_fail (c : TTLCache) (t : Int) (key : String) (f : fetcher)
    (hf : (f t).err ≠ none) : c.refresh t key f = c := by
  cases hx : (f t).err with
  | none => exact absurd hx hf
  | some _ => simp [TTLCache.refresh, hx]

theorem refresh_ok (c : TTLCache) (t : Int) (key : String) (f : fetcher)
    (hf : (f t).err = none) :
    c.refresh t key f =
      { ttl := c.ttl, interval := c.interval, cleanupAfter := c.cleanupAfter,
        store := mapSet c.store key ⟨t + (f t).took + c.ttl, (f t).value, none, true⟩ } := by
  simp [TTLCache.refresh, hf]

/-- C11, the code at the failing input: with a TTL of 10 and a fetcher whose
first call fails after 20, `get` on the missing key returns the error and leaves
no entry, but it finds the deleted item past its `expires` and starts the
refresh goroutine; the call of the fetcher made by that goroutine succeeds and
stores an entry, and the next `get` for the key returns it without a call of
the fetcher it is given, where the claim says that it calls its fetcher. -/
theorem C11_failed_fetch_refresh :
    mapGet cache10.store "k" = none ∧ (flakyFetch 0).err = some "boom" ∧
    ∃ r, cache10.get 0 "k" flakyFetch = some r ∧ r.err = some "boom" ∧ r.now = 20 ∧
      mapGet r.cache.store "k" = none ∧ r.refreshing = true ∧
      mapGet (r.cache.refresh 20 "k" flakyFetch).store "k" =
        some { expires := 35, value := .bytes [118], err := none, ready := true } ∧
      ∃ r', (r.cache.refresh 20 "k" flakyFetch).get 26 "k" failFetch = some r' ∧
        r'.called = 0 ∧ r'.refreshing = false ∧ r'.value = .bytes [118] ∧ r'.err = none :=
  ⟨rfl, rfl, _, rfl, rfl, rfl, rfl, rfl, rfl, _, rfl, rfl, rfl, rfl, rfl⟩

theorem get_hit (c : TTLCache) (now : Int) (key : String) (f : fetcher) (item : itemType)
    (hentry : mapGet c.store key = some item) (hready : item.ready = true) :
    c.get now key f = some
      { cache := c, now := now, value := item.value, err := item.err, called := 0,
        refreshing := decide (now - item.expires > 0) } := by
  simp [TTLCache.get, hentry, getFinish, hready]

/-- C12, as stated, fails on an entry that is past its `expires` while its
producer is still inside the fetcher.  On the cache `cachePending`, whose entry
for `"k"` expired at 10 and is not ready, `get` at time 15 does not return.
That state is reached: with a TTL of 10, the producer stores its item at 0, and
at 15 a second caller finds the entry, past its `expires`, and waits on `ready`
however often it is scheduled; it returns only after the producer has closed
the channel, and what it returns is the result of the producer. -/
theorem C12_counterexample :
    mapGet cachePending.store "k" =
        some { expires := 10, value := .nil, err := none, ready := false } ∧
      (10 : Int) < 15 ∧
      cachePending.get 15 "k" quickFetch = none ∧
      ((Conc.init 10 0 2).run versionFetch pendingSchedule).items =
        [{ expires := 10, value := .nil, err := none, ready := false }] ∧
      ((Conc.init 10 0 2).run versionFetch pendingSchedule).entry = some 0 ∧
      ((Conc.init 10 0 2).run versionFetch pendingSchedule).now = 15 ∧
      ((Conc.init 10 0 2).run versionFetch pendingSchedule).callers =
        [.fetching 0 0, .waiting 0] ∧
      ((Conc.init 10 0 2).run versionFetch
          (pendingSchedule ++ [.caller 0, .caller 0, .caller 1])).callers =
        [.waiting 0, .returned 0 (.bytes [118]) none] := by
  decide

/-- C12, amended: on a key whose entry is ready and past its `expires`, `get`
returns what the entry holds at once, without a call of the fetcher, leaves the
cache as it is and starts one refresh.  When the call of the fetcher made by the refresh succeeds
with `v2`, the entry is replaced by one that holds `v2` and expires `ttl` after
the fetcher returned, the other entries are kept, and a later `get` returns `v2`
without a call of its fetcher; when it fails, the cache is left as it is. -/
theorem C12_stale_while_revalidate (c : TTLCache) (now : Int) (key : String) (f : fetcher)
    (item : itemType) (hentry : mapGet c.store key = some item) (hready : item.ready = true)
    (hstale : item.expires < now) :
    ∃ r, c.get now key f = some r ∧ r.value = item.value ∧ r.err = item.err ∧
      r.now = now ∧ r.called = 0 ∧ r.refreshing = true ∧ r.fetcherCalls = 1 ∧ r.cache = c ∧
      (∀ t, (f t).err = none →
        mapGet (r.cache.refresh t key f).store key =
          some { expires := t + (f t).took + c.ttl, value := (f t).value, err := none,
                 ready := true } ∧
        (∀ k, k ≠ key → mapGet (r.cache.refresh t key f).store k = mapGet c.store k) ∧
        ∀ (now' : Int) (g : fetcher), ∃ r', (r.cache.refresh t key f).get now' key g = some r' ∧
          r'.value = (f t).value ∧ r'.err = none ∧ r'.called = 0) ∧
      (∀ t, (f t).err ≠ none → r.cache.refresh t key f = r.cache) := by
  have hdec : decide (now - item.expires > 0) = true := by
    simp only [decide_eq_true_eq]; omega
  refine ⟨{ cache := c, now := now, value := item.value, err := item.err, called := 0,
            refreshing := true }, ?_, rfl, rfl, rfl, rfl, rfl, rfl, rfl, ?_, ?_⟩
  · rw [get_hit c now key f item hentry hready, hdec]
  · intro t ht
    have hnew : mapGet (c.refresh t key f).store key =
        some { expires := t + (f t).took + c.ttl, value := (f t).value, err := none,
               ready := true } := by
      rw [refresh_ok c t key f ht]
      simp [mapGet_mapSet]
    refine ⟨hnew, ?_, ?_⟩
    · intro k hk
      have : ¬ key = k := fun x => hk x.symm
      rw [refresh_ok c t key f ht]
      simp [mapGet_mapSet, this]
    · intro now' g
      exact ⟨_, get_hit (c.refresh t key f) now' key g _ hnew rfl, rfl, rfl, rfl⟩
  · intro t ht
    exact refresh_fail c t key f ht

theorem C12_stale_while_revalidate_witness :
    mapGet cacheK.store "k" = some { expires := 100, value := .bytes [118], err := none,
                                     ready := true } ∧
    (true = true) ∧ ((100 : Int) < 150) ∧
    ∃ r, cacheK.get 150 "k" quickFetch = some r ∧ r.value = .bytes [118] ∧ r.err = none ∧
      r.now = 150 ∧ r.called = 0 ∧ r.refreshing = true ∧ r.fetcherCalls = 1 ∧ r.cache = cacheK ∧
      (∀ t, (quickFetch t).err = none →
        mapGet (r.cache.refresh t "k" quickFetch).store "k" =
          some { expires := t + (quickFetch t).took + cacheK.ttl, value := (quickFetch t).value,
                 err := none, ready := true } ∧
        (∀ k, k ≠ "k" → mapGet (r.cache.refresh t "k" quickFetch).store k = mapGet cacheK.store k) ∧
        ∀ (now' : Int) (g : fetcher),
          ∃ r', (r.cache.refresh t "k" quickFetch).get now' "k" g = some r' ∧
            r'.value = (quickFetch t).value ∧ r'.err = none ∧ r'.called = 0) ∧
      (∀ t, (quickFetch t).err ≠ none → r.cache.refresh t "k" quickFetch = r.cache) :=
  ⟨rfl, rfl, by decide,
    C12_stale_while_revalidate cacheK 150 "k" quickFetch
      { expires := 100, value := .bytes [118], err := none, ready := true } rfl rfl (by decide)⟩

/-- C19, the code at the failing input: with a TTL of 10, a `get` at time 0 on
a missing key whose fetcher returns at time 20 leaves an entry that expires at
10, not at 30: `expires` was stamped when the item was made, before the call of
the fetcher.  The producing call itself starts a refresh, and a `get` at time
25, before `20 + 10`, finds the entry stale.  The refresh goroutine, run at time
0 with the same fetcher, stamps `expires` after the fetcher has returned and
leaves an entry that expires at 30. -/
theorem C19_expires_stamped_before_fetch :
    (∃ r, cache10.get 0 "k" slowFetch = some r ∧ r.now = 20 ∧
      mapGet r.cache.store "k" =
        some { expires := 10, value := .bytes [118], err := none, ready := true } ∧
      r.refreshing = true ∧
      ∃ r', r.cache.get 25 "k" quickFetch = some r' ∧ r'.refreshing = true) ∧
    mapGet (cache10.refresh 0 "k" slowFetch).store "k" =
      some { expires := 30, value := .bytes [118], err := none, ready := true } :=
  ⟨⟨_, rfl, rfl, rfl, rfl, _, rfl, rfl⟩, rfl⟩


/-! ## The typed accessors and the cleaner -/

/-- C13: the typed accessors return whenever `get` does, and narrow without a
panic.  On a ready entry without error whose value is not of the type of the
accessor they return nil and the error of that accessor (`"data is not []bytes"`,
`"data is not []string"`, `"data is not map[string][]string"`), which does not
depend on the fetcher they were given; on a missing key whose fetcher fails with
`e` they return nil and `e`. -/
theorem C13_typed_accessors (c : TTLCache) (now : Int) (key : String) :
    (∀ (f : bytesFetcher) (item : itemType), mapGet c.store key = some item →
        item.ready = true → item.err = none → (∀ b, item.value ≠ .bytes b) →
        ∃ r, c.GetBytes now key f = some r ∧ r.data = none ∧
          r.err = some "data is not []bytes") ∧
    (∀ (f : stringsFetcher) (item : itemType), mapGet c.store key = some item →
        item.ready = true → item.err = none → (∀ l, item.value ≠ .strings l) →
        ∃ r, c.GetStrings now key f = some r ∧ r.data = none ∧
          r.err = some "data is not []string") ∧
    (∀ (f : mapStringStringsFetcher) (item : itemType), mapGet c.store key = some item →
        item.ready = true → item.err = none → (∀ m, item.value ≠ .mapStringStrings m) →
        ∃ r, c.GetMapStringStrings now key f = some r ∧ r.data = none ∧
          r.err = some "data is not map[string][]string") ∧
    (∀ (f : bytesFetcher) (e : String), mapGet c.store key = none → (f now).err = some e →
        ∃ r, c.GetBytes now key f = some r ∧ r.data = none ∧ r.err = some e) ∧
    (∀ (f : stringsFetcher) (e : String), mapGet c.store key = none → (f now).err = some e →
        ∃ r, c.GetStrings now key f = some r ∧ r.data = none ∧ r.err = some e) ∧
    (∀ (f : mapStringStringsFetcher) (e : String), mapGet c.store key = none →
        (f now).err = some e →
        ∃ r, c.GetMapStringStrings now key f = some r ∧ r.data = none ∧ r.err = some e) := by
  refine ⟨?_, ?_, ?_, ?_, ?_, ?_⟩
  · intro f item hentry hready herr hty
    unfold TTLCache.GetBytes
    rw [get_hit c now key _ item hentry hready]
    simp only [Option.map_some', herr]
    cases hv : item.value with
    | bytes b => exact absurd hv (hty b)
    | nil => exact ⟨_, rfl, rfl, rfl⟩
    | strings l => exact ⟨_, rfl, rfl, rfl⟩
    | mapStringStrings m => exact ⟨_, rfl, rfl, rfl⟩
    | other tag => exact ⟨_, rfl, rfl, rfl⟩
  · intro f item hentry hready herr hty
    unfold TTLCache.GetStrings
    rw [get_hit c now key _ item hentry hready]
    simp only [Option.map_some', herr]
    cases hv : item.value with
    | strings l => exact absurd hv (hty l)
    | nil => exact ⟨_, rfl, rfl, rfl⟩
    | bytes b => exact ⟨_, rfl, rfl, rfl⟩
    | mapStringStrings m => exact ⟨_, rfl, rfl, rfl⟩
    | other tag => exact ⟨_, rfl, rfl, rfl⟩
  · intro f item hentry hready herr hty
    unfold TTLCache.GetMapStringStrings
    rw [get_hit c now key _ item hentry hready]
    simp only [Option.map_some', herr]
    cases hv : item.value with
    | mapStringStrings m => exact absurd hv (hty m)
    | nil => exact ⟨_, rfl, rfl, rfl⟩
    | bytes b => exact ⟨_, rfl, rfl, rfl⟩
    | strings l => exact ⟨_, rfl, rfl, rfl⟩
    | other tag => exact ⟨_, rfl, rfl, rfl⟩
  · intro f e hmiss hfail
    obtain ⟨r, h1, _, h3, _⟩ := get_miss c now key
      (fun t => { took := (f t).took, value := .bytes (f t).data, err := (f t).err }) hmiss
    simp only [hfail] at h3
    unfold TTLCache.GetBytes
    rw [h1]
    simp only [Option.map_some', h3]
    exact ⟨_, rfl, rfl, rfl⟩
  · intro f e hmiss hfail
    obtain ⟨r, h1, _, h3, _⟩ := get_miss c now key
      (fun t => { took := (f t).took, value := .strings (f t).data, err := (f t).err }) hmiss
    simp only [hfail] at h3
    unfold TTLCache.GetStrings
    rw [h1]
    simp only [Option.map_some', h3]
    exact ⟨_, rfl, rfl, rfl⟩
  · intro f e hmiss hfail
    obtain ⟨r, h1, _, h3, _⟩ := get_miss c now key
      (fun t => { took := (f t).took, value := .mapStringStrings (f t).data, err := (f t).err })
      hmiss
    simp only [hfail] at h3
    unfold TTLCache.GetMapStringStrings
    rw [h1]
    simp only [Option.map_some', h3]
    exact ⟨_, rfl, rfl, rfl⟩

theorem C13_typed_accessors_witness :
    mapGet cacheStrings.store "k" =
      some { expires := 100, value := .strings ["x"], err := none, ready := true } ∧
    ∃ r, cacheStrings.GetBytes 0 "k" quickBytes = some r ∧ r.data = none ∧
      r.err = some "data is not []bytes" :=
  ⟨rfl, (C13_typed_accessors cacheStrings 0 "k").1 quickBytes
    { expires := 100, value := .strings ["x"], err := none, ready := true } rfl rfl rfl
    (fun b h => by cases h)⟩

theorem mapGet_foldl_mapDelete {V : Type} (ks : List String) (m : GoMap V) (k : String) :
    mapGet (ks.foldl mapDelete m) k = if k ∈ ks then none else mapGet m k := by
  induction ks generalizing m with
  | nil => simp
  | cons a ks ih =>
    simp only [List.foldl_cons, ih, mapGet_mapDelete, List.mem_cons]
    by_cases h1 : k ∈ ks
    · simp [h1]
    · by_cases h2 : a = k
      · simp [h1, h2]
      · have h3 : ¬ k = a := fun x => h2 x.symm
        simp [h1, h2, h3]

theorem timeSince_gt (now t d : Int) (hlo : minDuration ≤ d) (hhi : d ≤ maxDuration) :
    timeSince now t > d ↔ now - t > d ∧ d < maxDuration := by
  unfold timeSince
  split_ifs <;> constructor <;> intro h <;> omega

theorem timeSince_pos (now t : Int) : timeSince now t > 0 ↔ now - t > 0 := by
  have h := timeSince_gt now t 0 (by decide) (by decide)
  have hmax : (0 : Int) < maxDuration := by decide
  rw [h]
  exact ⟨fun x => x.1, fun x => ⟨x, hmax⟩⟩

theorem cleanerPass_eq (c : TTLCache) (now : Int) :
    c.cleanerPass now =
      { ttl := c.ttl, interval := c.interval, cleanupAfter := c.cleanupAfter,
        store := ((c.store.filter fun kv =>
          decide (timeSince now kv.2.expires > c.cleanupAfter)).map Prod.fst).foldl
            mapDelete c.store } := by
  unfold TTLCache.cleanerPass
  by_cases hlen : ((c.store.filter fun kv =>
      decide (timeSince now kv.2.expires > c.cleanupAfter)).map Prod.fst).length > 0
  · simp only [hlen, if_true]
  · have hnil : (c.store.filter fun kv =>
        decide (timeSince now kv.2.expires > c.cleanupAfter)).map Prod.fst = [] := by
      apply List.eq_nil_of_length_eq_zero
      omega
    simp only [hnil, List.length_nil, gt_iff_lt, lt_self_iff_false, if_false, List.foldl_nil]

/-- C17, as stated, fails when `cleanupAfter` is the largest duration: the
entry of `cacheForever` expired at 100, and at a time more than the largest
duration later `now - expires > cleanupAfter`, but `time.Since` returns the
largest duration, which is not above `cleanupAfter`, and the pass keeps the
entry. -/
theorem C17_counterexample :
    mapGet cacheForever.store "old" =
        some { expires := 100, value := .bytes [1], err := none, ready := true } ∧
      (maxDuration + 200) - 100 > cacheForever.cleanupAfter ∧
      minDuration ≤ cacheForever.cleanupAfter ∧ cacheForever.cleanupAfter ≤ maxDuration ∧
      mapGet (cacheForever.cleanerPass (maxDuration + 200)).store "old" =
        some { expires := 100, value := .bytes [1], err := none, ready := true } := by
  decide

/-- C17, amended: on a cache whose store is a Go map and whose `cleanupAfter` is
a duration, one pass of the cleaner at time `now` removes exactly the entries
with `time.Since(expires) > cleanupAfter`.  When `cleanupAfter` is below the
largest duration these are the entries with `now - expires > cleanupAfter`;
when it is the largest duration the pass removes nothing.  In both cases an
entry with `now - expires ≤ cleanupAfter` is kept as it is, in particular one
that is past its `expires` by no more than `cleanupAfter`; no entry is added
and the settings are unchanged. -/
theorem C17_eviction_sweep (c : TTLCache) (now : Int) (hmap : (mapKeys c.store).Nodup)
    (hlo : minDuration ≤ c.cleanupAfter) (hhi : c.cleanupAfter ≤ maxDuration) :
    (∀ key item, mapGet c.store key = some item →
      (mapGet (c.cleanerPass now).store key = none ↔
        timeSince now item.expires > c.cleanupAfter)) ∧
    (∀ key item, mapGet c.store key = some item → c.cleanupAfter < maxDuration →
      now - item.expires > c.cleanupAfter →
      mapGet (c.cleanerPass now).store key = none) ∧
    (c.cleanupAfter = maxDuration → ∀ key, mapGet (c.cleanerPass now).store key =
      mapGet c.store key) ∧
    (∀ key item, mapGet c.store key = some item → now - item.expires ≤ c.cleanupAfter →
      mapGet (c.cleanerPass now).store key = some item) ∧
    (∀ key, mapGet c.store key = none → mapGet (c.cleanerPass now).store key = none) ∧
    (∀ key item, mapGet c.store key = some item → item.expires < now →
      now - item.expires ≤ c.cleanupAfter →
      mapGet (c.cleanerPass now).store key = some item) ∧
    (c.cleanerPass now).ttl = c.ttl ∧ (c.cleanerPass now).interval = c.interval ∧
    (c.cleanerPass now).cleanupAfter = c.cleanupAfter := by
  have hmem : ∀ key, key ∈ (c.store.filter fun kv =>
      decide (timeSince now kv.2.expires > c.cleanupAfter)).map Prod.fst ↔
      ∃ item, mapGet c.store key = some item ∧
        timeSince now item.expires > c.cleanupAfter := by
    intro key
    simp only [List.mem_map, List.mem_filter, decide_eq_true_eq]
    constructor
    · rintro ⟨⟨k, item⟩, ⟨hin, hst⟩, rfl⟩
      exact ⟨item, mapGet_of_mem c.store k item hmap hin, hst⟩
    · rintro ⟨item, hget, hst⟩
      exact ⟨(key, item), ⟨mem_of_mapGet c.store key item hget, hst⟩, rfl⟩
  have hget : ∀ key, mapGet (c.cleanerPass now).store key =
      if key ∈ (c.store.filter fun kv =>
        decide (timeSince now kv.2.expires > c.cleanupAfter)).map Prod.fst
      then none else mapGet c.store key := by
    intro key
    rw [cleanerPass_eq]
    simp only [mapGet_foldl_mapDelete]
  have hgone : ∀ key item, mapGet c.store key = some item →
      timeSince now item.expires > c.cleanupAfter →
      mapGet (c.cleanerPass now).store key = none := by
    intro key item hentry hst
    rw [hget, if_pos ((hmem key).2 ⟨item, hentry, hst⟩)]
  have hstay : ∀ key item, mapGet c.store key = some item →
      ¬ timeSince now item.expires > c.cleanupAfter →
      mapGet (c.cleanerPass now).store key = some item := by
    intro key item hentry hle
    rw [hget, if_neg, hentry]
    rw [hmem]
    rintro ⟨item', h1, h2⟩
    rw [hentry] at h1
    cases h1
    exact hle h2
  have hkeep : ∀ key item, mapGet c.store key = some item →
      now - item.expires ≤ c.cleanupAfter →
      mapGet (c.cleanerPass now).store key = some item := by
    intro key item hentry hle
    refine hstay key item hentry ?_
    rw [timeSince_gt now item.expires c.cleanupAfter hlo hhi]
    omega
  have hnone : ∀ key, mapGet c.store key = none →
      mapGet (c.cleanerPass now).store key = none := by
    intro key h
    rw [hget, h]
    simp
  refine ⟨?_, ?_, ?_, hkeep, hnone, ?_, ?_, ?_, ?_⟩
  · intro key item hentry
    constructor
    · intro hgo
      by_contra hle
      rw [hstay key item hentry hle] at hgo
      cases hgo
    · exact hgone key item hentry
  · intro key item hentry hlt hst
    exact hgone key item hentry
      ((timeSince_gt now item.expires c.cleanupAfter hlo hhi).2 ⟨hst, hlt⟩)
  · intro hmax key
    cases hentry : mapGet c.store key with
    | none => exact hnone key hentry
    | some item =>
      refine hstay key item hentry ?_
      rw [timeSince_gt now item.expires c.cleanupAfter hlo hhi]
      omega
  · intro key item hentry _ hle
    exact hkeep key item hentry hle
  · rw [cleanerPass_eq]
  · rw [cleanerPass_eq]
  · rw [cleanerPass_eq]

/-- C17, on the cache `cacheSweep` at time 700: `cleanupAfter` is 500, a
duration below the largest one, and the store has distinct keys. -/
theorem C17_eviction_sweep_witness :
    (mapKeys cacheSweep.store).Nodup ∧ minDuration ≤ cacheSweep.cleanupAfter ∧
    cacheSweep.cleanupAfter ≤ maxDuration ∧
    mapGet (cacheSweep.cleanerPass 700).store "old" = none ∧
    mapGet (cacheSweep.cleanerPass 700).store "stale" =
      some { expires := 600, value := .bytes [2], err := none, ready := true } ∧
    ((∀ key item, mapGet cacheSweep.store key = some item →
      (mapGet (cacheSweep.cleanerPass 700).store key = none ↔
        timeSince 700 item.expires > cacheSweep.cleanupAfter)) ∧
    (∀ key item, mapGet cacheSweep.store key = some item →
      cacheSweep.cleanupAfter < maxDuration →
      700 - item.expires > cacheSweep.cleanupAfter →
      mapGet (cacheSweep.cleanerPass 700).store key = none) ∧
    (cacheSweep.cleanupAfter = maxDuration →
      ∀ key, mapGet (cacheSweep.cleanerPass 700).store key = mapGet cacheSweep.store key) ∧
    (∀ key item, mapGet cacheSweep.store key = some item →
      700 - item.expires ≤ cacheSweep.cleanupAfter →
      mapGet (cacheSweep.cleanerPass 700).store key = some item) ∧
    (∀ key, mapGet cacheSweep.store key = none →
      mapGet (cacheSweep.cleanerPass 700).store key = none) ∧
    (∀ key item, mapGet cacheSweep.store key = some item → item.expires < 700 →
      700 - item.expires ≤ cacheSweep.cleanupAfter →
      mapGet (cacheSweep.cleanerPass 700).store key = some item) ∧
    (cacheSweep.cleanerPass 700).ttl = cacheSweep.ttl ∧
    (cacheSweep.cleanerPass 700).interval = cacheSweep.interval ∧
    (cacheSweep.cleanerPass 700).cleanupAfter = cacheSweep.cleanupAfter) :=
  ⟨by decide, by decide, by decide, by decide, by decide,
    C17_eviction_sweep cacheSweep 700 (by decide) (by decide) (by decide)⟩

/-! ## Cluster membership and worker futures -/

theorem foldl_alive (all acc : List Member) :
    all.foldl (fun alive m => if m.Status = StatusAlive then alive ++ [m] else alive) acc =
      acc ++ all.filter (fun m => decide (m.Status = StatusAlive)) := by
  induction all generalizing acc with
  | nil => simp
  | cons m all ih =>
    by_cases h : m.Status = StatusAlive
    · simp [List.foldl_cons, ih, h]
    · simp [List.foldl_cons, ih, h]

theorem foldl_alive_names (all : List Member) (acc : List String) :
    all.foldl (fun alive m => if m.Status = StatusAlive then alive ++ [m.Name] else alive) acc =
      acc ++ (all.filter (fun m => decide (m.Status = StatusAlive))).map Member.Name := by
  induction all generalizing acc with
  | nil => simp
  | cons m all ih =>
    by_cases h : m.Status = StatusAlive
    · simp [List.foldl_cons, ih, h]
    · simp [List.foldl_cons, ih, h]

theorem set_append_length (pre rest : List String) (x y : String) :
    (pre ++ x :: rest).set pre.length y = pre ++ y :: rest := by
  induction pre with
  | nil => simp
  | cons a pre ih => simp [ih]

theorem fill_hosts (members : List Member) (pre : List String) :
    (members.enumFrom pre.length).foldl (fun hosts im => hosts.set im.1 im.2.Name)
        (pre ++ List.replicate members.length "") =
      pre ++ members.map Member.Name := by
  induction members generalizing pre with
  | nil => simp
  | cons m members ih =>
    have h := ih (pre ++ [m.Name])
    simp only [List.length_append, List.length_singleton, List.append_assoc,
      List.singleton_append] at h
    simp only [List.enumFrom_cons, List.foldl_cons, List.length_cons, List.replicate_succ,
      set_append_length, List.map_cons]
    exact h

/-- C15: `Members` returns nothing when there is no gossip instance, and
otherwise the members that the gossip layer lists with status alive, in the same
order; `Hosts` returns the names of `Members()` position by position; with a
gossip instance the `Hosts` and `Members` of the older package return the same
lists as the newer ones. -/
theorem C15_members_hosts (c : Cluster) :
    (c.serf = none → c.Members = []) ∧
    (∀ all, c.serf = some all →
      c.Members = all.filter (fun m => decide (m.Status = StatusAlive))) ∧
    c.Hosts = c.Members.map Member.Name ∧
    (∀ i (h : i < c.Members.length), c.Hosts.get? i = some (c.Members.get ⟨i, h⟩).Name) ∧
    (∀ all, c.serf = some all →
      cluster.Cluster.Hosts c = some c.Hosts ∧ cluster.Cluster.Members c = some c.Members) := by
  have hmem : ∀ all, c.serf = some all →
      c.Members = all.filter (fun m => decide (m.Status = StatusAlive)) := by
    intro all h
    simp [Cluster.Members, h, foldl_alive]
  have hhosts : c.Hosts = c.Members.map Member.Name := by
    have := fill_hosts c.Members []
    simpa [Cluster.Hosts, List.enum] using this
  refine ⟨?_, hmem, hhosts, ?_, ?_⟩
  · intro h
    simp [Cluster.Members, h]
  · intro i h
    rw [hhosts]
    simp [List.getElem?_map, List.getElem?_eq_getElem h]
  · intro all h
    refine ⟨?_, ?_⟩
    · rw [hhosts, hmem all h]
      simp [cluster.Cluster.Hosts, h, foldl_alive_names]
    · rw [hmem all h]
      simp [cluster.Cluster.Members, h, foldl_alive]

/-- C16: when a value arrives on the channel of the future, `Wait` returns a nil
error exactly when the value is not nil, its `Err()` is nil and `Extract`
succeeds, and `result` then holds the extracted data; a nil value yields
`ErrAppCall`, and a value whose `Err()` is not nil yields that error, in both
cases without a call of `Extract`; the goroutine of `DoParsing` sends an item
exactly in the case where `Wait` returns a nil error. -/
theorem C16_wait (res : Option ServiceResult) :
    ((futureV11.Wait (.res res)).err = none ↔
      ∃ r data, res = some r ∧ r.Err = none ∧ r.Extract = .ok data) ∧
    (∀ r data, res = some r → r.Err = none → r.Extract = .ok data →
      futureV11.Wait (.res res) = { err := none, result := some data, extractCalled := true }) ∧
    (res = none →
      futureV11.Wait (.res res) =
        { err := some ErrAppCall, result := none, extractCalled := false }) ∧
    (∀ r e, res = some r → r.Err = some e →
      futureV11.Wait (.res res) = { err := some e, result := none, extractCalled := false }) ∧
    (∀ r e, res = some r → r.Err = none → r.Extract = .error e →
      futureV11.Wait (.res res) = { err := some e, result := none, extractCalled := true }) ∧
    (∀ key, (parsingReceive key res).isSome = true ↔ (futureV11.Wait (.res res)).err = none) ∧
    (∀ key, parsingReceive key res = (futureV11.Wait (.res res)).result.map fun d => (key, d)) := by
  cases res with
  | none =>
    refine ⟨?_, ?_, ?_, ?_, ?_, ?_, ?_⟩ <;> simp [futureV11.Wait, parsingReceive]
  | some r =>
    obtain ⟨err, ext⟩ := r
    cases err with
    | some e =>
      refine ⟨?_, ?_, ?_, ?_, ?_, ?_, ?_⟩ <;> simp [futureV11.Wait, parsingReceive] <;>
        (intros; subst_vars; simp_all)
    | none =>
      cases ext with
      | error e =>
        refine ⟨?_, ?_, ?_, ?_, ?_, ?_, ?_⟩ <;> simp [futureV11.Wait, parsingReceive] <;>
        (intros; subst_vars; simp_all)
      | ok data =>
        refine ⟨?_, ?_, ?_, ?_, ?_, ?_, ?_⟩ <;> simp [futureV11.Wait, parsingReceive] <;>
        (intros; subst_vars; simp_all)

theorem foldl_trySend (ms q : List Member) (hq : q.length ≤ reconcileChCap) :
    ms.foldl trySend q = q ++ ms.take (reconcileChCap - q.length) := by
  induction ms generalizing q with
  | nil => simp
  | cons m ms ih =>
    by_cases h : q.length < reconcileChCap
    · have hq' : (q ++ [m]).length ≤ reconcileChCap := by
        simp only [List.length_append, List.length_singleton]; omega
      have hk : reconcileChCap - q.length = (reconcileChCap - (q ++ [m]).length) + 1 := by
        simp only [List.length_append, List.length_singleton]; omega
      simp only [List.foldl_cons, trySend, h, if_true]
      rw [ih (q ++ [m]) hq', hk, List.take_succ_cons]
      simp
    · have hz : reconcileChCap - q.length = 0 := by omega
      simp only [List.foldl_cons, trySend, h, if_false]
      rw [ih q hq, hz]
      simp

/-- C18: with at most 32 members in `reconcileCh`, `localMemberEvent` on a node
that is not the leader leaves the cluster as it is; on the leader it appends to
the channel, in order, the first members of the event that fit in the 32 places
and drops the others, so that the channel never holds more than 32 members (the
call is a total function: it never blocks); for a reap event every member it
queues carries `statusReap`, which is `-1` and differs from the five statuses of
the gossip library, and for any other event the members are queued as they are. -/
theorem C18_reconcile_queue (c : Cluster) (me : MemberEvent)
    (hcap : c.reconcileCh.length ≤ reconcileChCap) :
    (c.isLeader = false → c.localMemberEvent me = c) ∧
    (c.isLeader = true → me.type = EventType.EventMemberReap →
      (c.localMemberEvent me).reconcileCh =
        c.reconcileCh ++
          (me.Members.map fun m => ({ m with Status := statusReap } : Member)).take
            (reconcileChCap - c.reconcileCh.length)) ∧
    (c.isLeader = true → me.type ≠ EventType.EventMemberReap →
      (c.localMemberEvent me).reconcileCh =
        c.reconcileCh ++ me.Members.take (reconcileChCap - c.reconcileCh.length)) ∧
    (c.localMemberEvent me).reconcileCh.length ≤ reconcileChCap ∧
    (c.localMemberEvent me).serf = c.serf ∧
    (c.localMemberEvent me).isLeader = c.isLeader ∧
    reconcileChCap = 32 ∧ statusReap = -1 ∧
    statusReap ∉ [StatusNone, StatusAlive, StatusLeaving, StatusLeft, StatusFailed] := by
  have hreap : c.isLeader = true → me.type = EventType.EventMemberReap →
      (c.localMemberEvent me).reconcileCh =
        c.reconcileCh ++
          (me.Members.map fun m => ({ m with Status := statusReap } : Member)).take
            (reconcileChCap - c.reconcileCh.length) := by
    intro hl ht
    rw [← foldl_trySend _ _ hcap, List.foldl_map]
    simp [Cluster.localMemberEvent, hl, ht]
  have hother : c.isLeader = true → me.type ≠ EventType.EventMemberReap →
      (c.localMemberEvent me).reconcileCh =
        c.reconcileCh ++ me.Members.take (reconcileChCap - c.reconcileCh.length) := by
    intro hl ht
    rw [← foldl_trySend _ _ hcap]
    simp [Cluster.localMemberEvent, hl, ht]
  have hnot : c.isLeader = false → c.localMemberEvent me = c := by
    intro hl
    simp [Cluster.localMemberEvent, hl]
  refine ⟨hnot, hreap, hother, ?_, ?_, ?_, rfl, rfl, by decide⟩
  · cases hl : c.isLeader with
    | false => rw [hnot hl]; exact hcap
    | true =>
      by_cases ht : me.type = EventType.EventMemberReap
      · rw [hreap hl ht]
        simp only [List.length_append, List.length_take, List.length_map]
        omega
      · rw [hother hl ht]
        simp only [List.length_append, List.length_take]
        omega
  · unfold Cluster.localMemberEvent
    split <;> rfl
  · unfold Cluster.localMemberEvent
    split <;> rfl

theorem C18_reconcile_queue_witness :
    clusterFull.reconcileCh.length ≤ reconcileChCap ∧
    ((clusterFull.isLeader = false → clusterFull.localMemberEvent reapEvent = clusterFull) ∧
    (clusterFull.isLeader = true → reapEvent.type = EventType.EventMemberReap →
      (clusterFull.localMemberEvent reapEvent).reconcileCh =
        clusterFull.reconcileCh ++
          (reapEvent.Members.map fun m => ({ m with Status := statusReap } : Member)).take
            (reconcileChCap - clusterFull.reconcileCh.length)) ∧
    (clusterFull.isLeader = true → reapEvent.type ≠ EventType.EventMemberReap →
      (clusterFull.localMemberEvent reapEvent).reconcileCh =
        clusterFull.reconcileCh ++
          reapEvent.Members.take (reconcileChCap - clusterFull.reconcileCh.length)) ∧
    (clusterFull.localMemberEvent reapEvent).reconcileCh.length ≤ reconcileChCap ∧
    (clusterFull.localMemberEvent reapEvent).serf = clusterFull.serf ∧
    (clusterFull.localMemberEvent reapEvent).isLeader = clusterFull.isLeader ∧
    reconcileChCap = 32 ∧ statusReap = -1 ∧
    statusReap ∉ [StatusNone, StatusAlive, StatusLeaving, StatusLeft, StatusFailed]) :=
  ⟨by decide, C18_reconcile_queue clusterFull reapEvent (by decide)⟩

/-! ## Host keys -/

theorem applyCommand_hosts (c : FSM) (hinv : c.store.Inv) (cmd : FSMCommand) :
    ∃ c', c.applyCommand cmd = some c' ∧ c'.store.Inv ∧
      (∀ host, host ∈ mapKeys c.store.store → host ∈ mapKeys c'.store.store) ∧
      (∀ host, cmd.Host ≠ host → mapGet c'.store.store host = mapGet c.store.store host) := by
  unfold FSM.applyCommand
  by_cases h1 : cmd.type = cmdAssignConfig
  · obtain ⟨s', hp, _, hstore, _⟩ := Put_ok c.store hinv cmd.Host cmd.Config
    have hinv' := inv_Put c.store s' hinv _ _ _ hp
    have hk : ∀ host, host ∈ mapKeys c.store.store → host ∈ mapKeys s'.store := by
      intro host hh
      rw [hstore, mem_mapKeys_mapSet]
      exact Or.inr hh
    have hg : ∀ host, cmd.Host ≠ host → mapGet s'.store host = mapGet c.store.store host := by
      intro host hne
      rw [hstore, mapGet_mapSet, if_neg hne]
    rw [if_pos h1, hp]
    by_cases h2 : cmd.Host = c.Name
    · exact ⟨{ c with store := s', tasks := c.tasks ++ [(cmd.Config, some c.store.chans.next)] },
        by simp only [Option.map_some', h2, if_true], hinv', hk, hg⟩
    · exact ⟨{ c with store := s' }, by simp only [Option.map_some', h2, if_false],
        hinv', hk, hg⟩
  · by_cases h2 : cmd.type = cmdRemoveConfig
    · obtain ⟨s', hr, _, hcases⟩ := Remove_ok c.store hinv cmd.Host cmd.Config
      have hinv' := inv_Remove c.store s' hinv _ _ hr
      rw [if_neg h1, if_pos h2, hr]
      refine ⟨{ c with store := s' }, rfl, hinv', ?_, ?_⟩
      · intro host hh
        rcases hcases with ⟨_, e⟩ | ⟨i, _, _, hstore⟩
        · rw [e]; exact hh
        · simp only
          rw [hstore, mem_mapKeys_mapSet]
          exact Or.inr hh
      · intro host hne
        rcases hcases with ⟨_, e⟩ | ⟨i, _, _, hstore⟩
        · rw [e]
        · simp only
          rw [hstore, mapGet_mapSet, if_neg hne]
    · rw [if_neg h1, if_neg h2]
      exact ⟨c, rfl, hinv, fun _ h => h, fun _ _ => rfl⟩

theorem applyAll_unseen {Bytes : Type} (json : JSON Bytes) (log : List Bytes) (c : FSM)
    (hinv : c.store.Inv) (h : String)
    (hlog : ∀ d ∈ log, ∀ cmd, json.UnmarshalCommand d = some cmd → cmd.Host ≠ h) :
    ∃ c', FSM.applyAll json c log = some c' ∧
      mapGet c'.store.store h = mapGet c.store.store h := by
  induction log generalizing c with
  | nil => exact ⟨c, rfl, rfl⟩
  | cons d log ih =>
    have hstep : ∃ c1, FSM.Apply json c d = some c1 ∧ c1.store.Inv ∧
        mapGet c1.store.store h = mapGet c.store.store h := by
      unfold FSM.Apply
      cases hu : json.UnmarshalCommand d with
      | none => exact ⟨c, rfl, hinv, rfl⟩
      | some cmd =>
        obtain ⟨c1, e1, i1, _, g1⟩ := applyCommand_hosts c hinv cmd
        exact ⟨c1, e1, i1, g1 h (hlog d (List.mem_cons_self _ _) cmd hu)⟩
    obtain ⟨c1, e1, i1, g1⟩ := hstep
    obtain ⟨c2, e2, g2⟩ := ih c1 i1 (fun d' hd' => hlog d' (List.mem_cons_of_mem _ hd'))
    refine ⟨c2, ?_, g2.trans g1⟩
    unfold FSM.applyAll at e2 ⊢
    simp only [List.foldlM_cons, e1, Option.bind_eq_bind, Option.some_bind]
    exact e2

/-- C20: on a state machine whose store satisfies the invariant, `Apply` does
not panic and every host of the dump before the call is a host of the dump after
it.  After `AssignConfig(h, c)` and `RemoveConfig(h, c)` on a new state machine
the dump is `{h: []}` and `DistributionStatistic` returns exactly `[(h, "0")]`.
After a log in which no command names the host `h`, `DistributionStatistic` has
no pair for `h`. -/
theorem C20_host_keys_kept {Bytes : Type} (json : JSON Bytes) (c : FSM) (hinv : c.store.Inv)
    (data : Bytes) :
    (∃ c', FSM.Apply json c data = some c' ∧
      ∀ host, host ∈ dumpHosts c.store.Dump → host ∈ dumpHosts c'.store.Dump) ∧
    (∀ name h cfg, ∃ c1 c2,
      (FSM.init name).applyCommand ⟨cmdAssignConfig, h, cfg⟩ = some c1 ∧
      c1.applyCommand ⟨cmdRemoveConfig, h, cfg⟩ = some c2 ∧
      c2.store.Dump = [(h, [])] ∧ c2.store.DistributionStatistic = [(h, "0")]) ∧
    (∀ name (log : List Bytes) h,
      (∀ d ∈ log, ∀ cmd, json.UnmarshalCommand d = some cmd → cmd.Host ≠ h) →
      ∃ c', FSM.applyAll json (FSM.init name) log = some c' ∧
        ∀ n, (h, n) ∉ c'.store.DistributionStatistic) := by
  refine ⟨?_, ?_, ?_⟩
  · simp only [dumpHosts, mapKeys_Dump]
    unfold FSM.Apply
    cases hu : json.UnmarshalCommand data with
    | none => exact ⟨c, rfl, fun _ h => h⟩
    | some cmd =>
      obtain ⟨c', e1, _, hk, _⟩ := applyCommand_hosts c hinv cmd
      exact ⟨c', e1, hk⟩
  · intro name h cfg
    have hne : ¬ cmdRemoveConfig = cmdAssignConfig := by decide
    have hz : Itoa 0 = "0" := by decide
    have hput : NewFSMStore.Put h cfg =
        some ({ store := [(h, [(cfg, some 0)])], chans := { next := 1, closed := [] } },
          some 0) := by
      simp [NewFSMStore, FSMStore.Put, mapGet, mapSet, mapGetD, Chans.make]
    have hrem : FSMStore.Remove
        { store := [(h, [(cfg, some 0)])], chans := { next := 1, closed := [] } } h cfg =
        some { store := [(h, [])], chans := { next := 1, closed := [0] } } := by
      simp [FSMStore.Remove, mapGet, mapSet, mapDelete, Chans.closeIfNotNil, Chans.close]
    by_cases hn : h = name
    · subst hn
      refine ⟨{ Name := h, store := { store := [(h, [(cfg, some 0)])],
                                         chans := { next := 1, closed := [] } },
                tasks := [(cfg, some 0)] },
              { Name := h, store := { store := [(h, [])],
                                      chans := { next := 1, closed := [0] } },
                tasks := [(cfg, some 0)] }, ?_, ?_, ?_, ?_⟩
      · simp [FSM.applyCommand, hput, FSM.init]
      · simp [FSM.applyCommand, hrem, hne]
      · simp [FSMStore.Dump, keys, mapKeys]
      · simp [FSMStore.DistributionStatistic, hz]
    · refine ⟨{ Name := name, store := { store := [(h, [(cfg, some 0)])],
                                         chans := { next := 1, closed := [] } },
                tasks := [] },
              { Name := name, store := { store := [(h, [])],
                                         chans := { next := 1, closed := [0] } },
                tasks := [] }, ?_, ?_, ?_, ?_⟩
      · simp [FSM.applyCommand, hput, hn, FSM.init]
      · simp [FSM.applyCommand, hrem, hne]
      · simp [FSMStore.Dump, keys, mapKeys]
      · simp [FSMStore.DistributionStatistic, hz]
  · intro name log h hlog
    obtain ⟨c', e1, g1⟩ := applyAll_unseen json log (FSM.init name) inv_NewFSMStore h hlog
    refine ⟨c', e1, ?_⟩
    intro n hmem
    have hnone : mapGet c'.store.store h = none := by
      rw [g1]; rfl
    have hk : h ∈ mapKeys c'.store.store := by
      unfold FSMStore.DistributionStatistic at hmem
      obtain ⟨kv, hkv, hx⟩ := List.mem_map.1 hmem
      simp only [Prod.mk.injEq] at hx
      rw [← hx.1]
      exact List.mem_map_of_mem Prod.fst hkv
    rw [mem_mapKeys_iff] at hk
    obtain ⟨v, hv⟩ := hk
    rw [hnone] at hv
    cases hv

theorem C20_host_keys_kept_witness :
    storeAC.Inv ∧
    ((∃ c', FSM.Apply docJSON { Name := "b", store := storeAC, tasks := [] }
        (Doc.command ⟨"RemoveConfig", "a", "c"⟩) = some c' ∧
      ∀ host, host ∈ dumpHosts storeAC.Dump → host ∈ dumpHosts c'.store.Dump) ∧
    (∀ name h cfg, ∃ c1 c2,
      (FSM.init name).applyCommand ⟨cmdAssignConfig, h, cfg⟩ = some c1 ∧
      c1.applyCommand ⟨cmdRemoveConfig, h, cfg⟩ = some c2 ∧
      c2.store.Dump = [(h, [])] ∧ c2.store.DistributionStatistic = [(h, "0")]) ∧
    (∀ name (log : List Doc) h,
      (∀ d ∈ log, ∀ cmd, docJSON.UnmarshalCommand d = some cmd → cmd.Host ≠ h) →
      ∃ c', FSM.applyAll docJSON (FSM.init name) log = some c' ∧
        ∀ n, (h, n) ∉ c'.store.DistributionStatistic)) :=
  ⟨inv_storeAC,
    C20_host_keys_kept docJSON { Name := "b", store := storeAC, tasks := [] } inv_storeAC
      (Doc.command ⟨"RemoveConfig", "a", "c"⟩)⟩

/-! ## Concurrent callers of `get`: the steps -/

theorem run_nil (f : Nat → Outcome) (σ : Conc) : σ.run f [] = σ := rfl

/-- C21: for every state machine, whatever its store holds, and every snapshot
whose data does not decode to a map from hosts to lists of configs, `Restore`
returns the error of the decoder without a panic, and the state machine after
the call is the one before it: the same store with the same channel behind
every entry, no channel closed, and no task runner started.  The decoder runs
before `clean`, so the store is not cleared. -/
theorem C21_Restore_atomic {Bytes : Type} (json : JSON Bytes) (c : FSM) (rc : Bytes)
    (hbad : json.Decode rc = none) :
    FSM.Restore json c rc = some (.error "decode fsm store") ∧
      ∃ c', Op.run json c (.Restore rc) = some c' ∧
        c'.store.store = c.store.store ∧
        (∀ host config, c'.store.handle host config = c.store.handle host config) ∧
        c'.store.chans = c.store.chans ∧
        c'.tasks = c.tasks ∧
        c' = c := by
  have h : FSM.Restore json c rc = some (.error "decode fsm store") := by
    simp only [FSM.Restore, hbad]
  refine ⟨h, c, ?_, rfl, fun _ _ => rfl, rfl, rfl, rfl⟩
  simp only [Op.run, h, Option.map_some']

/-- C21, on the store with the entry `("a", "c")` and a running task: the data
`Doc.garbage` does not decode, and `Restore` leaves the entry, its open channel
and the task list as they were. -/
theorem C21_Restore_atomic_witness :
    docJSON.Decode Doc.garbage = none ∧
      FSM.Restore docJSON { Name := "a", store := storeAC, tasks := [("c", some 0)] }
        Doc.garbage = some (.error "decode fsm store") ∧
      ∃ c', Op.run docJSON { Name := "a", store := storeAC, tasks := [("c", some 0)] }
          (.Restore Doc.garbage) = some c' ∧
        c'.store.store = [("a", [("c", some 0)])] ∧
        (∀ host config, c'.store.handle host config = storeAC.handle host config) ∧
        c'.store.chans = { next := 1, closed := [] } ∧
        c'.tasks = [("c", some 0)] ∧
        c' = { Name := "a", store := storeAC, tasks := [("c", some 0)] } :=
  ⟨rfl, C21_Restore_atomic docJSON
    { Name := "a", store := storeAC, tasks := [("c", some 0)] } Doc.garbage rfl⟩

end Combaine
